import Mathlib

/-!
# Node explorer collector: peer ingestion, expansion scheduler, auto-export

A shallow embedding of `src/collector/server.js`.

JavaScript strings are modelled as `List Char` (one list element per code unit), so that the
index arithmetic of `indexOf`, `lastIndexOf`, `slice` and `startsWith` is structural and
evaluates by reduction.  An index result of `-1` is `none`.

The database is a pair of row lists in insertion order.  `Date.now()` is a parameter `now` of
each operation, the outcome of every outbound RPC call is given by a parameter, and database
statements are taken on the path where they succeed.
-/

set_option autoImplicit false

namespace NodeExplorer

/-! ## JavaScript string primitives -/

/-- JavaScript `s.startsWith(p)`. -/
def jsStartsWith (s p : List Char) : Bool :=
  p.isPrefixOf s

/-- JavaScript `s.indexOf(c)` for a one-character needle; `none` stands for `-1`. -/
def jsIndexOf (c : Char) : List Char → Option Nat
  | [] => none
  | x :: xs => if x = c then some 0 else (jsIndexOf c xs).map (· + 1)

/-- JavaScript `s.lastIndexOf(c)` for a one-character needle; `none` stands for `-1`. -/
def jsLastIndexOf (c : Char) : List Char → Option Nat
  | [] => none
  | x :: xs =>
    match jsLastIndexOf c xs with
    | some i => some (i + 1)
    | none => if x = c then some 0 else none

/-- JavaScript `s.slice(a, b)` for non-negative integer indices. -/
def jsSlice (s : List Char) (a b : Nat) : List Char :=
  (s.take b).drop a

/-- JavaScript `s.slice(a)` for a non-negative integer index. -/
def jsSliceFrom (s : List Char) (a : Nat) : List Char :=
  s.drop a

/-! ## JavaScript `Number(string)` (ECMAScript `StringToNumber`) -/

/-- A JavaScript number as produced by `Number(string)`.  `finite neg m e` denotes the double
nearest to `±m·10^e`; for an integer of magnitude at most `2^53` that double is the integer
itself. -/
inductive JSNumber where
  | nan
  | infinity (negative : Bool)
  | finite (negative : Bool) (mantissa : Nat) (exp10 : Int)
  deriving DecidableEq, Repr

/-- JavaScript `Number.isFinite(x)`. -/
def JSNumber.isFinite : JSNumber → Bool
  | .finite _ _ _ => true
  | _ => false

/-- The Number value for a natural number `n` below the overflow bound: the double nearest to
`n`, which is `n` itself up to `2^53`. -/
def JSNumber.ofNat (n : Nat) : JSNumber := .finite false n 0

/-- ECMAScript `StrWhiteSpaceChar`: `WhiteSpace` and `LineTerminator` code points. -/
def isStrWhiteSpaceChar (c : Char) : Bool :=
  let n := c.toNat
  n == 0x9 || n == 0xA || n == 0xB || n == 0xC || n == 0xD || n == 0x20 || n == 0xA0 ||
  n == 0x1680 || (0x2000 ≤ n && n ≤ 0x200A) || n == 0x2028 || n == 0x2029 || n == 0x202F ||
  n == 0x205F || n == 0x3000 || n == 0xFEFF

/-- ECMAScript `DecimalDigit`. -/
def isDecimalDigit (c : Char) : Bool :=
  48 ≤ c.toNat && c.toNat ≤ 57

/-- ECMAScript `HexDigit`. -/
def isHexDigit (c : Char) : Bool :=
  isDecimalDigit c || (97 ≤ c.toNat && c.toNat ≤ 102) || (65 ≤ c.toNat && c.toNat ≤ 70)

/-- ECMAScript `OctalDigit`. -/
def isOctalDigit (c : Char) : Bool :=
  48 ≤ c.toNat && c.toNat ≤ 55

/-- ECMAScript `BinaryDigit`. -/
def isBinaryDigit (c : Char) : Bool :=
  c.toNat == 48 || c.toNat == 49

/-- Value of one digit character (decimal or hexadecimal). -/
def digitValue (c : Char) : Nat :=
  if isDecimalDigit c then c.toNat - 48
  else if 97 ≤ c.toNat then c.toNat - 87
  else c.toNat - 55

/-- Mathematical value of a digit string in the given base. -/
def digitsValue (base : Nat) (ds : List Char) : Nat :=
  ds.foldl (fun acc c => base * acc + digitValue c) 0

/-- The least magnitude that rounds to `Infinity`: `2^1024 - 2^970`, the midpoint between the
largest double and `2^1024`. -/
def doubleOverflowBound : Nat :=
  179769313486231580793728971405303415079934132710037826936173778980444968292764750946649017977587207096330286416692887910946555547851940402630657488671505820681908902000708383676273854845817711531764475730270069855571366959622842914819860834936475292719074168444365510704342711559699508093042880177904174497792

/-- The rounding of `m·10^e` to a double overflows to `Infinity` exactly when
`m·10^e ≥ 2^1024 - 2^970`. -/
def overflowsDouble (m : Nat) (e : Int) : Bool :=
  match e with
  | Int.ofNat k => decide (doubleOverflowBound ≤ m * 10 ^ k)
  | Int.negSucc k => decide (doubleOverflowBound * 10 ^ (k + 1) ≤ m)

/-- The Number value for `±m·10^e`. -/
def roundMV (neg : Bool) (m : Nat) (e : Int) : JSNumber :=
  if overflowsDouble m e then .infinity neg else .finite neg m e

/-- ECMAScript `SignedInteger` read up to the end of the input. -/
def parseSignedInteger (s : List Char) : Option Int :=
  let digits (ds : List Char) : Option Nat :=
    if ds ≠ [] ∧ ds.all isDecimalDigit then some (digitsValue 10 ds) else none
  match s with
  | [] => none
  | c :: ds =>
    if c = '+' then (digits ds).map Int.ofNat
    else if c = '-' then (digits ds).map fun n => - Int.ofNat n
    else (digits (c :: ds)).map Int.ofNat

/-- ECMAScript optional `ExponentPart` read up to the end of the input. -/
def parseExponentPart (s : List Char) : Option Int :=
  match s with
  | [] => some 0
  | c :: rest => if c = 'e' ∨ c = 'E' then parseSignedInteger rest else none

/-- ECMAScript `StrUnsignedDecimalLiteral` other than `Infinity`: mantissa and decimal
exponent of the mathematical value, `none` when the text does not match the grammar. -/
def parseUnsignedDecimal (s : List Char) : Option (Nat × Int) :=
  let intDigits := s.takeWhile isDecimalDigit
  let rest := s.dropWhile isDecimalDigit
  match rest with
  | [] => if intDigits = [] then none else some (digitsValue 10 intDigits, 0)
  | c :: rest1 =>
    if c = '.' then
      let fracDigits := rest1.takeWhile isDecimalDigit
      let rest2 := rest1.dropWhile isDecimalDigit
      if intDigits = [] ∧ fracDigits = [] then none
      else (parseExponentPart rest2).map fun e =>
        (digitsValue 10 (intDigits ++ fracDigits), e - Int.ofNat fracDigits.length)
    else if intDigits = [] then none
    else (parseExponentPart rest).map fun e => (digitsValue 10 intDigits, e)

/-- ECMAScript `StrUnsignedDecimalLiteral`. -/
def strUnsignedDecimalLiteral (neg : Bool) (s : List Char) : JSNumber :=
  if s = "Infinity".toList then .infinity neg
  else match parseUnsignedDecimal s with
    | some (m, e) => roundMV neg m e
    | none => .nan

/-- ECMAScript `NonDecimalIntegerLiteral`: recognises the prefixes `0x`, `0o`, `0b` (either
case) and returns the base together with the digit text. -/
def nonDecimalBase (s : List Char) : Option (Nat × List Char) :=
  match s with
  | c0 :: c1 :: rest =>
    if c0 = '0' then
      if c1 = 'x' ∨ c1 = 'X' then some (16, rest)
      else if c1 = 'o' ∨ c1 = 'O' then some (8, rest)
      else if c1 = 'b' ∨ c1 = 'B' then some (2, rest)
      else none
    else none
  | _ => none

/-- ECMAScript `StrNumericLiteral` on text already stripped of surrounding white space; the
empty text converts to `+0`. -/
def strNumericLiteral (s : List Char) : JSNumber :=
  match s with
  | [] => .finite false 0 0
  | c :: rest =>
    match nonDecimalBase s with
    | some (base, ds) =>
      let ok := if base = 16 then ds.all isHexDigit
                else if base = 8 then ds.all isOctalDigit else ds.all isBinaryDigit
      if ds ≠ [] ∧ ok then roundMV false (digitsValue base ds) 0 else .nan
    | none =>
      if c = '+' then strUnsignedDecimalLiteral false rest
      else if c = '-' then strUnsignedDecimalLiteral true rest
      else strUnsignedDecimalLiteral false s

/-- Strip leading and trailing `StrWhiteSpaceChar`s. -/
def trimStrWhiteSpace (s : List Char) : List Char :=
  ((s.dropWhile isStrWhiteSpaceChar).reverse.dropWhile isStrWhiteSpaceChar).reverse

/-- JavaScript `Number(s)` for a string argument. -/
def jsNumber (s : List Char) : JSNumber :=
  strNumericLiteral (trimStrWhiteSpace s)

/-! ## Address parser (`parseEnode`) -/

/-- Result object of `parseEnode`. -/
structure ParsedEnode where
  nodeId : List Char
  ip : List Char
  tcpPort : JSNumber
  query : List Char
  deriving DecidableEq, Repr

/-- The scheme prefix `'enode://'`. -/
def enodeScheme : List Char := ['e', 'n', 'o', 'd', 'e', ':', '/', '/']

/-- Lines 54-69 of `parseEnode`: split the text between `@` and the query into `ip` and
`portStr`, for a bracketed or a bare host. -/
def splitHostPort (rest : List Char) : Option (List Char × List Char) :=
  if jsStartsWith rest ['['] then
    match jsIndexOf ']' rest with
    | none => none
    | some endIndex =>
      let ip := jsSlice rest 1 endIndex
      let after := jsSliceFrom rest (endIndex + 1)
      if jsStartsWith after [':'] = false then none
      else some (ip, jsSliceFrom after 1)
  else
    match jsLastIndexOf ':' rest with
    | none => none
    | some lastColon =>
      some (jsSlice rest 0 lastColon, jsSliceFrom rest (lastColon + 1))

/-- The function `parseEnode(enode)`; `none` is the `null` result. -/
def parseEnode (enode : List Char) : Option ParsedEnode :=
  if enode = [] ∨ jsStartsWith enode enodeScheme = false then none
  else
    match jsIndexOf '@' enode with
    | none => none
    | some atIndex =>
      let nodeId := jsSlice enode 8 atIndex
      let rest0 := jsSliceFrom enode (atIndex + 1)
      let queryIndex := jsIndexOf '?' rest0
      let query := match queryIndex with
        | some qi => jsSliceFrom rest0 qi
        | none => []
      let rest := match queryIndex with
        | some qi => jsSlice rest0 0 qi
        | none => rest0
      match splitHostPort rest with
      | none => none
      | some (ip, portStr) =>
        let tcpPort := jsNumber portStr
        if nodeId = [] ∨ ip = [] ∨ tcpPort.isFinite = false then none
        else some { nodeId := nodeId, ip := ip, tcpPort := tcpPort, query := query }

/-- The shape `enode://identity@hostpart[?query]` of a connection string: `id` is the text
between the scheme and the first `@`, `hostPart` the text after that `@` up to the query, and
`query` is empty or begins with `?`. -/
def enodeText (id hostPart query : List Char) : List Char :=
  enodeScheme ++ id ++ '@' :: hostPart ++ query

/-- A query part: empty, or beginning with `?`. -/
def IsQuery (q : List Char) : Prop :=
  q = [] ∨ ∃ q', q = '?' :: q'

/-- The connection string `s` has port segment `port`: the text after the port-separating
colon (the last colon of a bare host part, or the colon right after the closing bracket of a
bracketed host), up to the query. -/
def HasPortSegment (s port : List Char) : Prop :=
  ∃ id hostPart q, s = enodeText id hostPart q ∧ '@' ∉ id ∧ '?' ∉ hostPart ∧ IsQuery q ∧
    ((∃ host, hostPart = host ++ ':' :: port ∧ ':' ∉ port ∧ host.head? ≠ some '[') ∨
     (∃ h6, hostPart = '[' :: h6 ++ ']' :: ':' :: port ∧ ']' ∉ h6))

/-- The malformed connection strings: no scheme prefix, no `@`, an empty identity, a bracketed
host part without closing bracket, or no port-separating colon. -/
def Malformed (s : List Char) : Prop :=
  ¬ enodeScheme <+: s ∨
  '@' ∉ s ∨
  (∃ t, s = enodeScheme ++ '@' :: t) ∨
  (∃ id hostPart q, s = enodeText id hostPart q ∧ '@' ∉ id ∧ '?' ∉ hostPart ∧ IsQuery q ∧
    ((hostPart.head? = some '[' ∧ ']' ∉ hostPart) ∨
     (hostPart.head? ≠ some '[' ∧ ':' ∉ hostPart) ∨
     (∃ h6 after, hostPart = '[' :: h6 ++ ']' :: after ∧ ']' ∉ h6 ∧ after.head? ≠ some ':')))

/-! ## Peer store and candidate store (`upsertPeers`) -/

/-- Result object of the GeoIP collaborator `geo.lookup(ip)`; every field is nullable. -/
structure GeoData where
  countryCode : Option (List Char)
  countryName : Option (List Char)
  asnNumber : Option Nat
  asnOrg : Option (List Char)
  deriving DecidableEq, Repr

/-- One element of the `admin_peers` result, restricted to the fields `upsertPeers` reads.  A
missing `enode` or `name` is the empty text (both are falsy in the source), a missing `caps`
is the empty list (`peer.caps || []`). -/
structure RawPeer where
  enode : List Char
  name : List Char
  caps : List (List Char)
  deriving DecidableEq, Repr

/-- A row of the `nodes` table.  Timestamps are `Date.now()` milliseconds; `seen_count` is an
SQLite integer, far from its 64-bit range since it grows by one per poll. -/
structure NodeRow where
  node_id : List Char
  enode : List Char
  ip : List Char
  tcp_port : JSNumber
  client_name : Option (List Char)
  caps : List Char
  first_seen : Nat
  last_seen : Nat
  seen_count : Nat
  country_code : Option (List Char)
  country_name : Option (List Char)
  asn_number : Option Nat
  asn_org : Option (List Char)
  last_source : List Char
  deriving DecidableEq, Repr

/-- Values of the `status` column of the `candidates` table. -/
inductive CandidateStatus where
  | pending
  | added
  | failed
  deriving DecidableEq, Repr

/-- Modelled from the spec: the `candidates` table of `schema.sql`, which is not among the
sources.  The connection string `enode` is the primary key, `attempts` starts at 0,
`last_attempt` and `status` are nullable. -/
structure CandidateRow where
  enode : List Char
  node_id : List Char
  ip : List Char
  tcp_port : JSNumber
  first_seen : Nat
  attempts : Nat
  last_attempt : Option Nat
  status : Option CandidateStatus
  deriving DecidableEq, Repr

/-- The two tables of the database; rows are kept in insertion order. -/
structure Database where
  nodes : List NodeRow
  candidates : List CandidateRow
  deriving DecidableEq, Repr

/-- Collaborators of `upsertPeers`: the GeoIP lookup and `JSON.stringify` on a capability
list. -/
structure Collaborators where
  geoLookup : List Char → GeoData
  jsonStringify : List (List Char) → List Char

/-- The object stored in the `unique` map for a parsed peer (lines 228-243). -/
def mkItem (env : Collaborators) (now : Nat) (peer : RawPeer) (parsed : ParsedEnode) : NodeRow :=
  let geoData := env.geoLookup parsed.ip
  { node_id := parsed.nodeId
    enode := peer.enode
    ip := parsed.ip
    tcp_port := parsed.tcpPort
    client_name := if peer.name = [] then none else some peer.name
    caps := env.jsonStringify peer.caps
    first_seen := now
    last_seen := now
    seen_count := 1
    country_code := geoData.countryCode
    country_name := geoData.countryName
    asn_number := geoData.asnNumber
    asn_org := geoData.asnOrg
    last_source := "local-1".toList }

/-- One iteration of the loop `for (const peer of peers)` over the map `unique`, kept as the
list of its values in insertion order. -/
def uniqueStep (env : Collaborators) (now : Nat) (unique : List NodeRow) (peer : RawPeer) :
    List NodeRow :=
  match parseEnode peer.enode with
  | none => unique
  | some parsed =>
    if unique.any (fun item => item.node_id = parsed.nodeId) then unique
    else unique ++ [mkItem env now peer parsed]

/-- The map `unique` after the first loop of `upsertPeers`. -/
def collectUnique (env : Collaborators) (now : Nat) (peers : List RawPeer) : List NodeRow :=
  peers.foldl (uniqueStep env now) []

/-- The `DO UPDATE SET` clause: the existing row `old` after a conflict with `item`. -/
def conflictUpdate (old item : NodeRow) : NodeRow :=
  { old with
    enode := item.enode
    ip := item.ip
    tcp_port := item.tcp_port
    client_name := item.client_name
    caps := item.caps
    last_seen := item.last_seen
    seen_count := old.seen_count + 1
    country_code := item.country_code
    country_name := item.country_name
    asn_number := item.asn_number
    asn_org := item.asn_org
    last_source := item.last_source }

/-- One `stmt.run`: `INSERT INTO nodes ... ON CONFLICT(node_id) DO UPDATE SET ...`. -/
def upsertNode (nodes : List NodeRow) (item : NodeRow) : List NodeRow :=
  if nodes.any (fun r => r.node_id = item.node_id) then
    nodes.map fun r => if r.node_id = item.node_id then conflictUpdate r item else r
  else nodes ++ [item]

/-- One `candidateStmt.run`: `INSERT OR IGNORE INTO candidates (enode, node_id, ip, tcp_port,
first_seen, status) VALUES (?, ?, ?, ?, ?, 'pending')`, ignored when a row with the same
primary key `enode` exists; `attempts` and `last_attempt` take their defaults. -/
def insertCandidateIfAbsent (candidates : List CandidateRow) (item : NodeRow) :
    List CandidateRow :=
  if candidates.any (fun c => c.enode = item.enode) then candidates
  else candidates ++ [{ enode := item.enode, node_id := item.node_id, ip := item.ip,
                        tcp_port := item.tcp_port, first_seen := item.first_seen,
                        attempts := 0, last_attempt := none,
                        status := some CandidateStatus.pending }]

/-- The function `upsertPeers(peers)` run at `Date.now() = now`, on the path where every
database statement succeeds (a failing statement rolls the transaction back and rethrows). -/
def upsertPeers (env : Collaborators) (enableExpansion : Bool) (now : Nat)
    (peers : List RawPeer) (db : Database) : Database :=
  if peers = [] then db
  else
    let unique := collectUnique env now peers
    if unique = [] then db
    else
      let nodes := unique.foldl upsertNode db.nodes
      let candidates :=
        if enableExpansion then unique.foldl insertCandidateIfAbsent db.candidates
        else db.candidates
      { nodes := nodes, candidates := candidates }

/-- The stored record of an identity: `SELECT * FROM nodes WHERE node_id = ?`. -/
def findNode (nodes : List NodeRow) (id : List Char) : Option NodeRow :=
  nodes.find? fun r => r.node_id = id

/-- The first sighting in a batch that parses to identity `id`, with its parse result. -/
def firstSighting (id : List Char) : List RawPeer → Option (RawPeer × ParsedEnode)
  | [] => none
  | peer :: peers =>
    match parseEnode peer.enode with
    | some parsed => if parsed.nodeId = id then some (peer, parsed) else firstSighting id peers
    | none => firstSighting id peers

/-- The number of sightings in a batch that parse to identity `id`. -/
def sightingCount (id : List Char) (peers : List RawPeer) : Nat :=
  (peers.filter fun peer => (parseEnode peer.enode).map (·.nodeId) = some id).length

/-- A sequence of poll ticks, each running `upsertPeers` at its own time on its own batch. -/
def upsertTicks (env : Collaborators) (enableExpansion : Bool) :
    List (Nat × List RawPeer) → Database → Database
  | [], db => db
  | (now, peers) :: ticks, db =>
    upsertTicks env enableExpansion ticks (upsertPeers env enableExpansion now peers db)

/-- The number of ticks whose batch contains a sighting of identity `id`. -/
def ticksSighting (id : List Char) (ticks : List (Nat × List RawPeer)) : Nat :=
  (ticks.filter fun t => 0 < sightingCount id t.2).length

/-- A fixed environment used in the worked examples: no GeoIP data, capabilities joined by
commas. -/
def exampleEnv : Collaborators where
  geoLookup := fun _ => ⟨none, none, none, none⟩
  jsonStringify := fun caps => (",".toList).intercalate caps

/-- The batch of the worked examples: two sightings of identity `abc`, the later one at a
different address. -/
def exampleBatch : List RawPeer :=
  [⟨"enode://abc@10.0.0.5:30303".toList, "geth".toList, ["eth/68".toList]⟩,
   ⟨"enode://abc@10.0.0.6:30304".toList, "besu".toList, ["eth/67".toList]⟩]

/-! ## Expansion scheduler (`runExpansion`) -/

/-- Outcome of one `rpcCall('admin_addPeer', [enode])`: a truthy result, a falsy result, or a
thrown error. -/
inductive RpcOutcome where
  | truthy
  | falsy
  | error
  deriving DecidableEq, Repr

/-- The process-local object `expansionState`. -/
structure ExpansionState where
  windowStart : Nat
  count : Nat
  deriving DecidableEq, Repr

/-- Configuration read by `runExpansion`: `enableExpansion`, `expansionRate` (the rate limit
per window, a natural number) and `Number(config.expansionMaxCandidates || 5000)`. -/
structure ExpansionConfig where
  enableExpansion : Bool
  expansionRate : Nat
  maxCandidates : Nat
  deriving DecidableEq, Repr

/-- The `WHERE` clause of the candidate query: `status IS NULL OR status IN ('pending',
'failed')`. -/
def eligibleStatus (c : CandidateRow) : Bool :=
  match c.status with
  | none => true
  | some CandidateStatus.pending => true
  | some CandidateStatus.failed => true
  | some CandidateStatus.added => false

/-- The `ORDER BY (last_attempt IS NOT NULL), last_attempt ASC, first_seen ASC` comparison. -/
def candidateOrder (a b : CandidateRow) : Prop :=
  match a.last_attempt, b.last_attempt with
  | none, none => a.first_seen ≤ b.first_seen
  | none, some _ => True
  | some _, none => False
  | some x, some y => x < y ∨ (x = y ∧ a.first_seen ≤ b.first_seen)

instance candidateOrderDecidable : DecidableRel candidateOrder := fun a b => by
  unfold candidateOrder
  cases a.last_attempt <;> cases b.last_attempt <;> exact inferInstance

/-- The candidate query of `runExpansion` with `LIMIT limit`; rows that compare equal keep
their table order. -/
def selectEligible (candidates : List CandidateRow) (limit : Nat) : List CandidateRow :=
  ((candidates.filter eligibleStatus).insertionSort candidateOrder).take limit

/-- The backoff test of the first loop: `lastAttempt && now - lastAttempt < backoffMs`, with
`attempts = candidate.attempts || 0`, `lastAttempt = candidate.last_attempt || 0` and
`backoffMs = (attempts + 1) * 60000`. -/
def backoffSkips (now : Nat) (candidate : CandidateRow) : Bool :=
  let attempts := candidate.attempts
  let lastAttempt := candidate.last_attempt.getD 0
  let backoffMs : Int := (attempts + 1) * 60000
  lastAttempt ≠ 0 && decide ((now : Int) - (lastAttempt : Int) < backoffMs)

/-- The first loop of `runExpansion`, building `queue` from the fetched `candidates`. -/
def buildQueue (now : Nat) (remaining : Int) :
    List CandidateRow → List CandidateRow → List CandidateRow
  | [], queue => queue
  | candidate :: candidates, queue =>
    if backoffSkips now candidate then buildQueue now remaining candidates queue
    else
      let queue1 := queue ++ [candidate]
      if (queue1.length : Int) ≥ remaining then queue1
      else buildQueue now remaining candidates queue1

/-- The `UPDATE candidates SET attempts = attempts + 1, last_attempt = ?, status = ? WHERE
enode = ?` statement. -/
def recordAttempt (candidates : List CandidateRow) (now : Nat) (status : CandidateStatus)
    (enode : List Char) : List CandidateRow :=
  candidates.map fun c =>
    if c.enode = enode then
      { c with attempts := c.attempts + 1, last_attempt := some now, status := some status }
    else c

/-- The status recorded for an outbound-connect outcome. -/
def attemptStatus : RpcOutcome → CandidateStatus
  | RpcOutcome.truthy => CandidateStatus.added
  | RpcOutcome.falsy => CandidateStatus.failed
  | RpcOutcome.error => CandidateStatus.failed

/-- What one `runExpansion` invocation leaves behind: the rate-window state, the candidate
table, and the connection strings passed to `admin_addPeer`, in call order. -/
structure ExpansionResult where
  state : ExpansionState
  candidates : List CandidateRow
  calls : List (List Char)
  deriving DecidableEq, Repr

/-- The second loop of `runExpansion`, over `queue`. -/
def processQueue (expansionRate now : Nat) (rpc : List Char → RpcOutcome) :
    List CandidateRow → ExpansionResult → ExpansionResult
  | [], r => r
  | candidate :: queue, r =>
    let status := attemptStatus (rpc candidate.enode)
    let r1 : ExpansionResult :=
      { state := { r.state with count := r.state.count + 1 }
        candidates := recordAttempt r.candidates now status candidate.enode
        calls := r.calls ++ [candidate.enode] }
    if r1.state.count ≥ expansionRate then r1
    else processQueue expansionRate now rpc queue r1

/-- The window check at the top of `runExpansion`. -/
def windowCheck (now : Nat) (st : ExpansionState) : ExpansionState :=
  if (now : Int) - (st.windowStart : Int) ≥ 60000 then { windowStart := now, count := 0 }
  else st

/-- The function `runExpansion()` run at `Date.now() = now`, where `rpc` gives the outcome of
the outbound-connect call for each connection string. -/
def runExpansion (cfg : ExpansionConfig) (now : Nat) (rpc : List Char → RpcOutcome)
    (st : ExpansionState) (table : List CandidateRow) : ExpansionResult :=
  if cfg.enableExpansion = false then { state := st, candidates := table, calls := [] }
  else
    let st1 := windowCheck now st
    let remaining : Int := (cfg.expansionRate : Int) - (st1.count : Int)
    if remaining ≤ 0 then { state := st1, candidates := table, calls := [] }
    else
      let candidates := selectEligible table cfg.maxCandidates
      let queue := buildQueue now remaining candidates []
      processQueue cfg.expansionRate now rpc queue
        { state := st1, candidates := table, calls := [] }

/-- The table after the `UPDATE` statements of the attempted candidates, in order. -/
def recordAttempts (now : Nat) (rpc : List Char → RpcOutcome)
    (table : List CandidateRow) (attempted : List CandidateRow) : List CandidateRow :=
  attempted.foldl
    (fun t c => recordAttempt t now (attemptStatus (rpc c.enode)) c.enode) table

/-- The candidates that a `runExpansion` invocation attempts, in closed form: of the fetched
candidates that the backoff test does not skip, the first `expansionRate - count`, with the
count taken after the window check. -/
def attemptedCandidates (cfg : ExpansionConfig) (now : Nat) (st : ExpansionState)
    (table : List CandidateRow) : List CandidateRow :=
  ((selectEligible table cfg.maxCandidates).filter fun c => !backoffSkips now c).take
    (cfg.expansionRate - (windowCheck now st).count)

/-- One scheduler invocation in a run of the process: its time, the RPC outcomes it meets, and
the peers enqueued as candidates by the ingestion step just before it. -/
structure ExpansionTick where
  now : Nat
  rpc : List Char → RpcOutcome
  enqueued : List NodeRow

/-- One line of the invocation log: the time, the window start in force when the invocation
returns, and the number of outbound-connect calls issued. -/
structure ExpansionLogEntry where
  now : Nat
  windowStart : Nat
  calls : Nat
  deriving DecidableEq, Repr

/-- A run of successive `runExpansion` invocations, threading the rate-window state and the
candidate table, and logging each invocation. -/
def expansionRun (cfg : ExpansionConfig) :
    List ExpansionTick → ExpansionState → List CandidateRow → List ExpansionLogEntry
  | [], _, _ => []
  | tick :: ticks, st, table =>
    let table1 := tick.enqueued.foldl insertCandidateIfAbsent table
    let r := runExpansion cfg tick.now tick.rpc st table1
    { now := tick.now, windowStart := r.state.windowStart, calls := r.calls.length }
      :: expansionRun cfg ticks r.state r.candidates

/-- The number of outbound-connect calls issued by invocations whose time lies in the rolling
interval `[T, T + 60000)`. -/
def callsInRollingWindow (log : List ExpansionLogEntry) (T : Nat) : Nat :=
  ((log.filter fun e => T ≤ e.now ∧ e.now < T + 60000).map (·.calls)).sum

/-- The number of outbound-connect calls issued while the window start was `w`. -/
def callsInFixedWindow (log : List ExpansionLogEntry) (w : Nat) : Nat :=
  ((log.filter fun e => e.windowStart = w).map (·.calls)).sum

/-- The initial value of `expansionState`. -/
def initialExpansionState : ExpansionState := { windowStart := 0, count := 0 }

/-- The configuration of the worked examples: expansion enabled, one call per window. -/
def exampleConfig : ExpansionConfig :=
  { enableExpansion := true, expansionRate := 1, maxCandidates := 5000 }

/-- The run of the worked examples: three poll ticks 15 s apart, the second of which has just
ingested two peers. -/
def exampleTicks : List ExpansionTick :=
  [{ now := 1700000000000, rpc := fun _ => RpcOutcome.truthy, enqueued := [] },
   { now := 1700000045000, rpc := fun _ => RpcOutcome.truthy,
     enqueued := collectUnique exampleEnv 1700000045000
       [⟨"enode://aaa@10.0.0.5:30303".toList, [], []⟩,
        ⟨"enode://bbb@10.0.0.6:30303".toList, [], []⟩] },
   { now := 1700000060000, rpc := fun _ => RpcOutcome.truthy, enqueued := [] }]

/-- A pending candidate that was never attempted. -/
def examplePendingCandidate : CandidateRow :=
  { enode := "enode://abc@10.0.0.5:30303".toList, node_id := "abc".toList,
    ip := "10.0.0.5".toList, tcp_port := JSNumber.ofNat 30303, first_seen := 0,
    attempts := 0, last_attempt := none, status := some CandidateStatus.pending }

/-- A configuration with the default rate limit of 30 calls per window. -/
def exampleConfig30 : ExpansionConfig :=
  { enableExpansion := true, expansionRate := 30, maxCandidates := 5000 }

/-- A failed candidate attempted once, at `t = 1700000000000`. -/
def exampleBackoffCandidate : CandidateRow :=
  { enode := "enode://abc@10.0.0.5:30303".toList, node_id := "abc".toList,
    ip := "10.0.0.5".toList, tcp_port := JSNumber.ofNat 30303, first_seen := 1600000000000,
    attempts := 1, last_attempt := some 1700000000000, status := some CandidateStatus.failed }

/-! ## Auto-exporter (`writeAutoExports`, lines 411-426) -/

/-- One iteration of either merge loop: the pair is `(combined, seen)`. -/
def mergeStep (acc : List (List Char) × List (List Char)) (enode : List Char) :
    List (List Char) × List (List Char) :=
  if acc.2.contains enode then acc else (acc.1 ++ [enode], enode :: acc.2)

/-- The merge of `writeAutoExports` (lines 411-426): the list `finalEnodes` that the function
writes to both artifacts, from the entries `existingEnodes` read from the existing file, the
fresh connection strings `freshEnodes` and the limit. -/
def writeAutoExports (existingEnodes freshEnodes : List (List Char)) (limit : Nat) :
    List (List Char) :=
  let afterExisting := existingEnodes.foldl mergeStep ([], [])
  let afterFresh := freshEnodes.foldl mergeStep afterExisting
  afterFresh.1.take limit

/-- A list with every later duplicate removed, order preserved. -/
def dedupKeepFirst : List (List Char) → List (List Char)
  | [] => []
  | x :: xs => x :: (dedupKeepFirst xs).filter (· ≠ x)

/-- The export list as the specification words it: existing entries first without later
duplicates, then the fresh entries not already present without duplicates, cut at the limit. -/
def specifiedExport (existing fresh : List (List Char)) (limit : Nat) : List (List Char) :=
  (dedupKeepFirst existing ++ dedupKeepFirst (fresh.filter (· ∉ existing))).take limit

/-! ## Privacy masking (`maskIp`, `maskEnode`) -/

/-- JavaScript `s.split(c)` for a one-character separator. -/
def jsSplit (c : Char) : List Char → List (List Char)
  | [] => [[]]
  | x :: xs =>
    if x = c then [] :: jsSplit c xs
    else
      match jsSplit c xs with
      | [] => [[x]]
      | part :: parts => (x :: part) :: parts

/-- JavaScript `parts.join(c)` for a one-character separator. -/
def jsJoin (c : Char) : List (List Char) → List Char
  | [] => []
  | [part] => part
  | part :: next :: parts => part ++ c :: jsJoin c (next :: parts)

/-- The redaction token `'xxx'`. -/
def redactionToken : List Char := ['x', 'x', 'x']

/-- The groups kept by the colon branch of `maskIp`: `ip.split(':').filter(Boolean)`. -/
def colonGroups (ip : List Char) : List (List Char) :=
  (jsSplit ':' ip).filter fun part => part ≠ []

/-- The function `maskIp(ip)`. -/
def maskIp (ip : List Char) : List Char :=
  if ip = [] then ip
  else if '.' ∈ ip ∧ (jsSplit '.' ip).length = 4 then
    jsJoin '.' ((jsSplit '.' ip).set 3 redactionToken)
  else if ':' ∈ ip ∧ (colonGroups ip).length ≥ 2 then
    jsJoin ':' ((colonGroups ip).take 3) ++ [':', ':']
  else ip

/-- The masking rule as the specification words it: a host of exactly 4 dot-separated parts
gets its last part replaced by the token; otherwise a host containing `:` becomes its first 3
colon-separated groups joined by `:` and followed by `::`; any other host is unchanged. -/
def maskIpSpecified (h : List Char) : List Char :=
  if (jsSplit '.' h).length = 4 then jsJoin '.' ((jsSplit '.' h).set 3 redactionToken)
  else if ':' ∈ h then jsJoin ':' ((jsSplit ':' h).take 3) ++ [':', ':']
  else h

/-- JavaScript `String(x)` for a number, on the values the model renders: `NaN`, the
infinities, and the integers of magnitude at most `2^53`, which a double holds exactly and
which print as their decimal digits (`-0` prints as `0`).  For any other value (a fraction,
or a magnitude above `2^53`) the text depends on the rounding to a double, which is not
modelled: the result is `none`. -/
def jsNumberToString : JSNumber → Option (List Char)
  | .nan => some "NaN".toList
  | .infinity neg => some (if neg then "-Infinity".toList else "Infinity".toList)
  | .finite neg m e =>
    let magnitude : Option Nat :=
      match e with
      | Int.ofNat k => some (m * 10 ^ k)
      | Int.negSucc k => if m % 10 ^ (k + 1) = 0 then some (m / 10 ^ (k + 1)) else none
    match magnitude with
    | none => none
    | some n =>
      if n ≤ 9007199254740992 then
        some (if neg ∧ n ≠ 0 then '-' :: Nat.toDigits 10 n else Nat.toDigits 10 n)
      else none

/-- The function `maskEnode(enode)`; `none` when the port is a number whose text the model
does not render (see `jsNumberToString`). -/
def maskEnode (enode : List Char) : Option (List Char) :=
  match parseEnode enode with
  | none => some enode
  | some parsed =>
    let maskedIp := maskIp parsed.ip
    match jsNumberToString parsed.tcpPort with
    | none => none
    | some port =>
      let host :=
        if ':' ∈ parsed.ip then '[' :: maskedIp ++ ']' :: ':' :: port
        else maskedIp ++ ':' :: port
      some (enodeScheme ++ parsed.nodeId ++ '@' :: host ++ parsed.query)

/-! ## Candidate insertion and runs of the scheduler, in closed form -/

/-- The row that `INSERT OR IGNORE INTO candidates` adds for an ingested peer: `attempts = 0`,
no `last_attempt`, status `pending`. -/
def newCandidate (item : NodeRow) : CandidateRow :=
  { enode := item.enode, node_id := item.node_id, ip := item.ip, tcp_port := item.tcp_port,
    first_seen := item.first_seen, attempts := 0, last_attempt := none,
    status := some CandidateStatus.pending }

/-- The rate-window state after a run of successive `runExpansion` invocations (the state
threaded by `expansionRun`). -/
def expansionRunState (cfg : ExpansionConfig) :
    List ExpansionTick → ExpansionState → List CandidateRow → ExpansionState
  | [], st, _ => st
  | tick :: ticks, st, table =>
    let table1 := tick.enqueued.foldl insertCandidateIfAbsent table
    let r := runExpansion cfg tick.now tick.rpc st table1
    expansionRunState cfg ticks r.state r.candidates

/-- A candidate that failed 5 times, last at `t₀ = 1700000000000`. -/
def exampleSkippedCandidate : CandidateRow :=
  { enode := "enode://aaa@10.0.0.5:30303".toList, node_id := "aaa".toList,
    ip := "10.0.0.5".toList, tcp_port := JSNumber.ofNat 30303, first_seen := 1600000000000,
    attempts := 5, last_attempt := some 1700000000000,
    status := some CandidateStatus.failed }

/-- A candidate that failed once, at `t₀ + 60000`. -/
def exampleDueCandidate : CandidateRow :=
  { enode := "enode://bbb@10.0.0.6:30303".toList, node_id := "bbb".toList,
    ip := "10.0.0.6".toList, tcp_port := JSNumber.ofNat 30303, first_seen := 1600000000000,
    attempts := 1, last_attempt := some 1700000060000,
    status := some CandidateStatus.failed }

/-- A table for the worked examples, holding these two candidates. -/
def exampleBackoffTable : List CandidateRow :=
  [exampleSkippedCandidate, exampleDueCandidate]

/-! ## Auto-exporter: files and schedule (`writeAutoExports`, `maybeAutoExport`) -/

/-- Configuration read by the auto-exporter: `autoExportEnabled`, `autoExportMs`,
`autoExportLimit`, `autoExportOnlyOnline` and `onlineWindowMs`. -/
structure ExportConfig where
  autoExportEnabled : Bool
  autoExportMs : Nat
  autoExportLimit : Nat
  autoExportOnlyOnline : Bool
  onlineWindowMs : Nat
  deriving DecidableEq, Repr

/-- The two artifacts: the text of the bootnodes file and the array held by the static-nodes
JSON file; `none` when the file does not exist. -/
structure ExportFiles where
  bootnodes : Option (List Char)
  staticNodes : Option (List (List Char))
  deriving DecidableEq, Repr

/-- The line feed character. -/
def lineFeed : Char := Char.ofNat 10

/-- The carriage return character. -/
def carriageReturn : Char := Char.ofNat 13

/-- Remove the carriage return that a match of `/\r?\n/` takes from the end of a line. -/
def stripCarriageReturn (line : List Char) : List Char :=
  if line.getLast? = some carriageReturn then line.dropLast else line

/-- Apply `stripCarriageReturn` to every part but the last (the last part is not followed by a
line feed). -/
def stripAllButLast : List (List Char) → List (List Char)
  | [] => []
  | [part] => [part]
  | part :: next :: parts => stripCarriageReturn part :: stripAllButLast (next :: parts)

/-- JavaScript `text.split(/\r?\n/)`. -/
def splitLines (text : List Char) : List (List Char) :=
  stripAllButLast (jsSplit lineFeed text)

/-- The list `existingEnodes` (lines 403-409): the trimmed, non-blank lines of the existing
file that do not start with `#`. -/
def readExistingEnodes (file : Option (List Char)) : List (List Char) :=
  match file with
  | none => []
  | some text =>
    ((splitLines text).map trimStrWhiteSpace).filter fun line =>
      line ≠ [] ∧ jsStartsWith line ['#'] = false

/-- The list `freshEnodes` (lines 389-402): the connection strings of the `limit` most recently
seen peers, restricted to those seen since `cutoff = now - onlineWindowMs` when
`autoExportOnlyOnline` is set; rows with equal `last_seen` keep their table order. -/
def selectFreshEnodes (cfg : ExportConfig) (now : Nat) (nodes : List NodeRow) :
    List (List Char) :=
  let cutoff : Int := (now : Int) - (cfg.onlineWindowMs : Int)
  let rows :=
    if cfg.autoExportOnlyOnline then nodes.filter fun r => decide ((r.last_seen : Int) ≥ cutoff)
    else nodes
  let ordered := rows.insertionSort fun a b => a.last_seen ≥ b.last_seen
  ((ordered.take cfg.autoExportLimit).map (·.enode)).filter fun enode => enode ≠ []

/-- The text written to the bootnodes file: the generated header line, then the entries, one
per line.  `isoTime` is the text of `new Date(now).toISOString()`. -/
def bootnodesPayload (isoTime : List Char) (finalEnodes : List (List Char)) : List Char :=
  "# Generated by Ethernova Node Explorer at ".toList ++ isoTime ++ [lineFeed]
    ++ jsJoin lineFeed finalEnodes ++ [lineFeed]

/-- The function `writeAutoExports()` with its file reads and writes, on the path where the
file system calls succeed. -/
def writeAutoExportsFiles (cfg : ExportConfig) (toISOString : Nat → List Char) (now : Nat)
    (nodes : List NodeRow) (files : ExportFiles) : ExportFiles :=
  if cfg.autoExportEnabled = false then files
  else
    let freshEnodes := selectFreshEnodes cfg now nodes
    let existingEnodes := readExistingEnodes files.bootnodes
    let finalEnodes := writeAutoExports existingEnodes freshEnodes cfg.autoExportLimit
    { bootnodes := some (bootnodesPayload (toISOString now) finalEnodes)
      staticNodes := some finalEnodes }

/-- The function `maybeAutoExport()`: returns the new `lastAutoExport` and the files.
`now` is the time read by `maybeAutoExport`, `writeNow` the one read by `writeAutoExports`. -/
def maybeAutoExport (cfg : ExportConfig) (toISOString : Nat → List Char) (now writeNow : Nat)
    (nodes : List NodeRow) (lastAutoExport : Nat) (files : ExportFiles) : Nat × ExportFiles :=
  if cfg.autoExportEnabled = false then (lastAutoExport, files)
  else if (now : Int) - (lastAutoExport : Int) < (cfg.autoExportMs : Int) then
    (lastAutoExport, files)
  else (now, writeAutoExportsFiles cfg toISOString writeNow nodes files)

/-! ## Poller (`poll`) -/

/-- JavaScript `parseInt(value, 16)` on a text that starts with `0x`: the longest run of hex
digits after the prefix, `NaN` when there is none. -/
def parseIntHex (value : List Char) : JSNumber :=
  let digits := (value.drop 2).takeWhile isHexDigit
  if digits = [] then JSNumber.nan else roundMV false (digitsValue 16 digits) 0

/-- The function `parsePeerCount(value)` for a string result of `net_peerCount`. -/
def parsePeerCount (value : List Char) : JSNumber :=
  if jsStartsWith value ['0', 'x'] then parseIntHex value
  else
    let num := jsNumber value
    if num.isFinite then num else JSNumber.finite false 0 0

/-- What the monitored node answers during one tick: the result of each RPC method, `none`
when the call fails (a non-2xx response or an error field makes `rpcCall` throw).  A result of
`admin_peers` that is not an array is the empty list (`Array.isArray(peers) ? peers : []`). -/
structure RpcEnv where
  adminPeers : Option (List RawPeer)
  adminNodeInfo : Option (List Char)
  netPeerCount : Option (List Char)
  adminAddPeer : List Char → RpcOutcome

/-- One `rpcCall` issued by a tick. -/
inductive RpcCall where
  | adminPeers
  | adminNodeInfo
  | netPeerCount
  | adminAddPeer (enode : List Char)
  deriving DecidableEq, Repr

/-- The values of `Date.now()` read during one tick, in reading order: by `poll` for
`lastUpdate`, by `upsertPeers`, by `runExpansion`, by `maybeAutoExport` and by
`writeAutoExports`. -/
structure TickClock where
  update : Nat
  upsert : Nat
  expansion : Nat
  exportCheck : Nat
  exportWrite : Nat
  deriving DecidableEq, Repr

/-- The mutable state that `poll` works on: the variables declared in `main` (lines 179-190),
the database and the export files. -/
structure PollerState where
  lastUpdate : Option Nat
  lastPeersRaw : List RawPeer
  lastPeerCount : JSNumber
  lastNodeInfo : Option (List Char)
  rpcOk : Bool
  isPolling : Bool
  lastAutoExport : Nat
  expansionState : ExpansionState
  db : Database
  files : ExportFiles
  deriving DecidableEq, Repr

/-- Configuration read by a tick. -/
structure PollConfig where
  expansion : ExpansionConfig
  autoExport : ExportConfig
  deriving DecidableEq, Repr

/-- The function `poll()`, run as one step: the state it leaves and the RPC calls it issued,
in order.  A tick that finds `isPolling` set returns at once; a failing `admin_peers` or
`net_peerCount` call is caught, sets `rpcOk = false` and ends the tick; `isPolling` is cleared
by the `finally` block. -/
def poll (cfg : PollConfig) (env : Collaborators) (toISOString : Nat → List Char)
    (rpc : RpcEnv) (clock : TickClock) (s : PollerState) : PollerState × List RpcCall :=
  if s.isPolling then (s, [])
  else
    match rpc.adminPeers with
    | none => ({ s with rpcOk := false, isPolling := false }, [RpcCall.adminPeers])
    | some peers =>
      let nodeInfo := rpc.adminNodeInfo
      match rpc.netPeerCount with
      | none =>
        ({ s with rpcOk := false, isPolling := false },
          [RpcCall.adminPeers, RpcCall.adminNodeInfo, RpcCall.netPeerCount])
      | some peerCountRaw =>
        let db1 := upsertPeers env cfg.expansion.enableExpansion clock.upsert peers s.db
        let r := runExpansion cfg.expansion clock.expansion rpc.adminAddPeer
          s.expansionState db1.candidates
        let db2 : Database := { nodes := db1.nodes, candidates := r.candidates }
        let exported := maybeAutoExport cfg.autoExport toISOString clock.exportCheck
          clock.exportWrite db2.nodes s.lastAutoExport s.files
        ({ lastUpdate := some clock.update
           lastPeersRaw := peers
           lastPeerCount := parsePeerCount peerCountRaw
           lastNodeInfo := nodeInfo
           rpcOk := true
           isPolling := false
           lastAutoExport := exported.1
           expansionState := r.state
           db := db2
           files := exported.2 },
          [RpcCall.adminPeers, RpcCall.adminNodeInfo, RpcCall.netPeerCount]
            ++ r.calls.map RpcCall.adminAddPeer)

/-- A poller state for the worked examples: one stored peer, a previous successful tick, no
tick in flight. -/
def examplePollerState : PollerState :=
  { lastUpdate := some 1700000000000
    lastPeersRaw := exampleBatch
    lastPeerCount := JSNumber.ofNat 2
    lastNodeInfo := none
    rpcOk := true
    isPolling := false
    lastAutoExport := 0
    expansionState := { windowStart := 1700000000000, count := 1 }
    db := upsertPeers exampleEnv true 1700000000000 exampleBatch ⟨[], []⟩
    files := { bootnodes := none, staticNodes := none } }

/-- The monitored node not answering. -/
def exampleDownRpc : RpcEnv :=
  { adminPeers := none, adminNodeInfo := none, netPeerCount := none,
    adminAddPeer := fun _ => RpcOutcome.error }

/-! ## Lemmas on the string primitives -/

theorem jsIndexOf_eq_none {c : Char} {s : List Char} (h : c ∉ s) : jsIndexOf c s = none := by
  induction s with
  | nil => rfl
  | cons x xs ih =>
    have hx : x ≠ c := fun e => h (e ▸ List.mem_cons_self _ _)
    have hxs : c ∉ xs := fun m => h (List.mem_cons_of_mem _ m)
    simp [jsIndexOf, hx, ih hxs]

theorem jsIndexOf_append {c : Char} {pre : List Char} (post : List Char) (h : c ∉ pre) :
    jsIndexOf c (pre ++ post) = (jsIndexOf c post).map (· + pre.length) := by
  induction pre with
  | nil => simp
  | cons x xs ih =>
    have hx : x ≠ c := fun e => h (e ▸ List.mem_cons_self _ _)
    have hxs : c ∉ xs := fun m => h (List.mem_cons_of_mem _ m)
    show (if x = c then some 0 else (jsIndexOf c (xs ++ post)).map (· + 1)) = _
    rw [if_neg hx, ih hxs]
    cases jsIndexOf c post <;> simp [Nat.add_assoc]

theorem jsIndexOf_append_cons {c : Char} {pre : List Char} (post : List Char) (h : c ∉ pre) :
    jsIndexOf c (pre ++ c :: post) = some pre.length := by
  rw [jsIndexOf_append _ h]
  simp [jsIndexOf]

theorem jsLastIndexOf_eq_none {c : Char} {s : List Char} (h : c ∉ s) :
    jsLastIndexOf c s = none := by
  induction s with
  | nil => rfl
  | cons x xs ih =>
    have hx : x ≠ c := fun e => h (e ▸ List.mem_cons_self _ _)
    have hxs : c ∉ xs := fun m => h (List.mem_cons_of_mem _ m)
    simp [jsLastIndexOf, hx, ih hxs]

theorem jsLastIndexOf_append_cons {c : Char} (pre : List Char) {post : List Char}
    (h : c ∉ post) : jsLastIndexOf c (pre ++ c :: post) = some pre.length := by
  induction pre with
  | nil =>
    show (match jsLastIndexOf c post with
      | some i => some (i + 1)
      | none => if c = c then some 0 else none) = _
    rw [jsLastIndexOf_eq_none h]; simp
  | cons x xs ih =>
    show (match jsLastIndexOf c (xs ++ c :: post) with
      | some i => some (i + 1)
      | none => if x = c then some 0 else none) = _
    rw [ih]; rfl

theorem jsStartsWith_iff (s p : List Char) : jsStartsWith s p = true ↔ p <+: s := by
  simp [jsStartsWith]

theorem jsStartsWith_singleton (s : List Char) (c : Char) :
    jsStartsWith s [c] = true ↔ s.head? = some c := by
  cases s with
  | nil => simp [jsStartsWith]
  | cons x xs =>
    by_cases h : x = c
    · simp [jsStartsWith, List.isPrefixOf, h]
    · simp [jsStartsWith, List.isPrefixOf, h, Ne.symm h]

/-! ## Lemmas on `parseEnode` -/

theorem splitHostPort_bare (host port : List Char) (hp : ':' ∉ port)
    (hh : host.head? ≠ some '[') : splitHostPort (host ++ ':' :: port) = some (host, port) := by
  have h1 : jsStartsWith (host ++ ':' :: port) ['['] = false := by
    rw [Bool.eq_false_iff, Ne, jsStartsWith_singleton]
    cases host with
    | nil => simp
    | cons x xs => simpa using hh
  simp [splitHostPort, h1, jsLastIndexOf_append_cons host hp, jsSlice, jsSliceFrom]

theorem splitHostPort_bracketed (h6 port : List Char) (h : ']' ∉ h6) :
    splitHostPort ('[' :: h6 ++ ']' :: ':' :: port) = some (h6, port) := by
  have h1 : jsStartsWith ('[' :: h6 ++ ']' :: ':' :: port) ['['] = true := by
    rw [jsStartsWith_singleton]; rfl
  have h2 : ']' ∉ '[' :: h6 := by simpa using h
  have h3 : jsIndexOf ']' ('[' :: h6 ++ ']' :: ':' :: port) = some (h6.length + 1) := by
    have := jsIndexOf_append_cons (':' :: port) h2
    simpa using this
  unfold splitHostPort
  rw [h1, h3]
  simp [jsSlice, jsSliceFrom, jsStartsWith, List.take_append_eq_append_take]

theorem splitHostPort_unclosed (hostPart : List Char) (h1 : hostPart.head? = some '[')
    (h2 : ']' ∉ hostPart) : splitHostPort hostPart = none := by
  simp [splitHostPort, (jsStartsWith_singleton _ _).2 h1, jsIndexOf_eq_none h2]

theorem splitHostPort_noColon (hostPart : List Char) (h1 : hostPart.head? ≠ some '[')
    (h2 : ':' ∉ hostPart) : splitHostPort hostPart = none := by
  have h : jsStartsWith hostPart ['['] = false := by
    rw [Bool.eq_false_iff, Ne, jsStartsWith_singleton]; exact h1
  simp [splitHostPort, h, jsLastIndexOf_eq_none h2]

theorem splitHostPort_noColonAfterBracket (h6 after : List Char) (h : ']' ∉ h6)
    (ha : after.head? ≠ some ':') : splitHostPort ('[' :: h6 ++ ']' :: after) = none := by
  have h1 : jsStartsWith ('[' :: h6 ++ ']' :: after) ['['] = true := by
    rw [jsStartsWith_singleton]; rfl
  have h2 : ']' ∉ '[' :: h6 := by simpa using h
  have h3 : jsIndexOf ']' ('[' :: h6 ++ ']' :: after) = some (h6.length + 1) := by
    have := jsIndexOf_append_cons after h2
    simpa using this
  have h4 : jsStartsWith after [':'] = false := by
    rw [Bool.eq_false_iff, Ne, jsStartsWith_singleton]; exact ha
  unfold splitHostPort
  rw [h1, h3]
  simp [jsSliceFrom, h4]

theorem enodeScheme_length : enodeScheme.length = 8 := rfl

/-- On a connection string of the shape `enode://id@hostPart[?query]`, `parseEnode` reduces to
the host/port split of `hostPart` followed by the final validity test. -/
theorem parseEnode_enodeText (id hostPart q : List Char) (hid : '@' ∉ id)
    (hq : '?' ∉ hostPart) (hquery : IsQuery q) :
    parseEnode (enodeText id hostPart q) =
      match splitHostPort hostPart with
      | none => none
      | some (ip, portStr) =>
        if id = [] ∨ ip = [] ∨ (jsNumber portStr).isFinite = false then none
        else some { nodeId := id, ip := ip, tcpPort := jsNumber portStr, query := q } := by
  have hne : enodeText id hostPart q ≠ [] := by simp [enodeText, enodeScheme]
  have hsw : jsStartsWith (enodeText id hostPart q) enodeScheme = true := by
    rw [jsStartsWith_iff]; exact ⟨id ++ '@' :: hostPart ++ q, by simp [enodeText]⟩
  have hat : '@' ∉ enodeScheme ++ id := by
    simp only [List.mem_append, not_or]; exact ⟨by decide, hid⟩
  have hlen : (enodeScheme ++ id).length = 8 + id.length := by
    rw [List.length_append, enodeScheme_length]
  have hshape : enodeText id hostPart q = (enodeScheme ++ id) ++ '@' :: (hostPart ++ q) := by
    simp [enodeText]
  have hidx : jsIndexOf '@' (enodeText id hostPart q) = some (8 + id.length) := by
    rw [hshape, jsIndexOf_append_cons _ hat, hlen]
  have hslice : jsSlice (enodeText id hostPart q) 8 (8 + id.length) = id := by
    rw [hshape, jsSlice, ← hlen, List.take_left, ← enodeScheme_length, List.drop_left]
  have hfrom : jsSliceFrom (enodeText id hostPart q) (8 + id.length + 1) = hostPart ++ q := by
    rw [hshape, jsSliceFrom, ← hlen]
    have : (enodeScheme ++ id) ++ '@' :: (hostPart ++ q)
        = ((enodeScheme ++ id) ++ ['@']) ++ (hostPart ++ q) := by simp
    rw [this]
    have hl : (enodeScheme ++ id).length + 1 = ((enodeScheme ++ id) ++ ['@']).length := by
      simp only [List.length_append, List.length_singleton]
    rw [hl, List.drop_left]
  unfold parseEnode
  simp only [hne, hsw, hidx, hslice, hfrom, false_or, Bool.true_eq_false, if_false]
  rcases hquery with rfl | ⟨q', rfl⟩
  · simp only [List.append_nil, jsIndexOf_eq_none hq]
  · simp only [jsIndexOf_append_cons q' hq, jsSlice, jsSliceFrom, List.drop_left,
      List.take_left, List.drop_zero]

/-! ## Lemmas on `Number` applied to decimal digit strings -/

theorem digitsValue_append_singleton (base : Nat) (pre : List Char) (d : Char) :
    digitsValue base (pre ++ [d]) = base * digitsValue base pre + digitValue d := by
  simp [digitsValue, List.foldl_append]

theorem digitChar_decimal (k : Nat) (h : k < 10) :
    isDecimalDigit (Nat.digitChar k) = true ∧ digitValue (Nat.digitChar k) = k := by
  interval_cases k <;> exact ⟨by decide, by decide⟩

theorem toDigitsCore_decimal (fuel : Nat) : ∀ (n : Nat) (ds : List Char), n < fuel →
    ∃ pre, Nat.toDigitsCore 10 fuel n ds = pre ++ ds ∧ pre ≠ [] ∧
      (∀ c ∈ pre, isDecimalDigit c = true) ∧ digitsValue 10 pre = n := by
  induction fuel with
  | zero => intro n ds h; omega
  | succ fuel ih =>
    intro n ds h
    have hd := digitChar_decimal (n % 10) (Nat.mod_lt _ (by decide))
    unfold Nat.toDigitsCore
    by_cases h0 : n / 10 = 0
    · refine ⟨[Nat.digitChar (n % 10)], by simp [h0], by simp, by simpa using hd.1, ?_⟩
      have hn : n % 10 = n := Nat.mod_eq_of_lt (by omega)
      show 10 * 0 + digitValue (Nat.digitChar (n % 10)) = n
      rw [hd.2]; omega
    · obtain ⟨pre, hpre, _, hall, hval⟩ :=
        ih (n / 10) (Nat.digitChar (n % 10) :: ds) (by omega)
      refine ⟨pre ++ [Nat.digitChar (n % 10)], by simp [h0, hpre], by simp, ?_, ?_⟩
      · intro c hc
        rcases List.mem_append.1 hc with hc | hc
        · exact hall c hc
        · rw [List.mem_singleton.1 hc]; exact hd.1
      · rw [digitsValue_append_singleton, hval, hd.2]; omega

/-- The canonical decimal text of a natural number is a non-empty string of decimal digits
whose value is that number. -/
theorem toDigits_decimal (p : Nat) :
    Nat.toDigits 10 p ≠ [] ∧ (∀ c ∈ Nat.toDigits 10 p, isDecimalDigit c = true) ∧
      digitsValue 10 (Nat.toDigits 10 p) = p := by
  obtain ⟨pre, hpre, hne, hall, hval⟩ := toDigitsCore_decimal (p + 1) p [] (by omega)
  have : Nat.toDigits 10 p = pre := by simpa [Nat.toDigits] using hpre
  rw [this]; exact ⟨hne, hall, hval⟩

theorem decimalDigit_ne {c x : Char} (h : isDecimalDigit c = true)
    (hx : isDecimalDigit x = false) : c ≠ x := by
  rintro rfl; simp [h] at hx

theorem not_mem_of_decimal {ds : List Char} (hall : ∀ c ∈ ds, isDecimalDigit c = true)
    {x : Char} (hx : isDecimalDigit x = false) : x ∉ ds :=
  fun hm => decimalDigit_ne (hall x hm) hx rfl

theorem decimalDigit_not_whiteSpace {c : Char} (h : isDecimalDigit c = true) :
    isStrWhiteSpaceChar c = false := by
  have h' : 48 ≤ c.toNat ∧ c.toNat ≤ 57 := by simpa [isDecimalDigit] using h
  simp [isStrWhiteSpaceChar]
  omega

theorem dropWhile_of_all_false {p : Char → Bool} {l : List Char}
    (h : ∀ c ∈ l, p c = false) : l.dropWhile p = l := by
  cases l with
  | nil => rfl
  | cons x xs => simp [List.dropWhile, h x (List.mem_cons_self _ _)]

theorem trimStrWhiteSpace_of_no_whiteSpace {s : List Char}
    (h : ∀ c ∈ s, isStrWhiteSpaceChar c = false) : trimStrWhiteSpace s = s := by
  unfold trimStrWhiteSpace
  rw [dropWhile_of_all_false h,
    dropWhile_of_all_false (fun c hc => h c (List.mem_reverse.1 hc)), List.reverse_reverse]

/-- The `Number` conversion of a non-empty string of decimal digits is the Number value of the
integer it writes. -/
theorem jsNumber_decimalDigits (ds : List Char) (hne : ds ≠ [])
    (hall : ∀ c ∈ ds, isDecimalDigit c = true) :
    jsNumber ds = roundMV false (digitsValue 10 ds) 0 := by
  unfold jsNumber
  rw [trimStrWhiteSpace_of_no_whiteSpace (fun c hc => decimalDigit_not_whiteSpace (hall c hc))]
  have htake : ds.takeWhile isDecimalDigit = ds := List.takeWhile_eq_self_iff.2 hall
  have hdrop : ds.dropWhile isDecimalDigit = [] := List.dropWhile_eq_nil_iff.2 hall
  have hinf : ds ≠ "Infinity".toList := by
    intro e
    have : 'I' ∈ ds := by rw [e]; decide
    exact not_mem_of_decimal hall (by decide) this
  have hdec : strUnsignedDecimalLiteral false ds = roundMV false (digitsValue 10 ds) 0 := by
    unfold strUnsignedDecimalLiteral
    rw [if_neg hinf]
    simp [parseUnsignedDecimal, htake, hdrop, hne]
  cases ds with
  | nil => exact absurd rfl hne
  | cons d ds' =>
    have hd : isDecimalDigit d = true := hall d (List.mem_cons_self _ _)
    have hpre : nonDecimalBase (d :: ds') = none := by
      cases ds' with
      | nil => rfl
      | cons c1 rest =>
        have hc1 : isDecimalDigit c1 = true :=
          hall c1 (List.mem_cons_of_mem _ (List.mem_cons_self _ _))
        simp [nonDecimalBase, decimalDigit_ne hc1 (x := 'x') (by decide),
          decimalDigit_ne hc1 (x := 'X') (by decide), decimalDigit_ne hc1 (x := 'o') (by decide),
          decimalDigit_ne hc1 (x := 'O') (by decide), decimalDigit_ne hc1 (x := 'b') (by decide),
          decimalDigit_ne hc1 (x := 'B') (by decide)]
    simp only [strNumericLiteral, hpre, decimalDigit_ne hd (x := '+') (by decide),
      decimalDigit_ne hd (x := '-') (by decide), if_false, hdec]

/-- How `parseEnode` treats a well-formed connection string whose port is written as a
non-empty string of decimal digits: bare host. -/
theorem parseEnode_bare_decimal (id h ds q : List Char) (hid : id ≠ []) (hat : '@' ∉ id)
    (hh : h ≠ []) (hhq : '?' ∉ h) (hhb : h.head? ≠ some '[') (hq : IsQuery q)
    (hne : ds ≠ []) (hall : ∀ c ∈ ds, isDecimalDigit c = true) :
    parseEnode (enodeText id (h ++ ':' :: ds) q) =
      if digitsValue 10 ds < doubleOverflowBound then
        some { nodeId := id, ip := h, tcpPort := .finite false (digitsValue 10 ds) 0, query := q }
      else none := by
  have hq' : '?' ∉ h ++ ':' :: ds := by
    simp only [List.mem_append, List.mem_cons, not_or]
    exact ⟨hhq, by decide, not_mem_of_decimal hall (by decide)⟩
  rw [parseEnode_enodeText id _ q hat hq' hq,
    splitHostPort_bare h ds (not_mem_of_decimal hall (by decide)) hhb]
  simp only [jsNumber_decimalDigits ds hne hall]
  by_cases hlt : digitsValue 10 ds < doubleOverflowBound
  · have : overflowsDouble (digitsValue 10 ds) 0 = false := by
      show decide (doubleOverflowBound ≤ digitsValue 10 ds * 10 ^ 0) = false
      simp; omega
    simp [roundMV, this, JSNumber.isFinite, hid, hh, hlt]
  · have : overflowsDouble (digitsValue 10 ds) 0 = true := by
      show decide (doubleOverflowBound ≤ digitsValue 10 ds * 10 ^ 0) = true
      simp; omega
    simp [roundMV, this, JSNumber.isFinite, hlt]

/-- How `parseEnode` treats a well-formed connection string whose port is written as a
non-empty string of decimal digits: bracketed host. -/
theorem parseEnode_bracketed_decimal (id h6 ds q : List Char) (hid : id ≠ []) (hat : '@' ∉ id)
    (hh : h6 ≠ []) (hhq : '?' ∉ h6) (hhb : ']' ∉ h6) (hq : IsQuery q)
    (hne : ds ≠ []) (hall : ∀ c ∈ ds, isDecimalDigit c = true) :
    parseEnode (enodeText id ('[' :: h6 ++ ']' :: ':' :: ds) q) =
      if digitsValue 10 ds < doubleOverflowBound then
        some { nodeId := id, ip := h6, tcpPort := .finite false (digitsValue 10 ds) 0, query := q }
      else none := by
  have hq' : '?' ∉ '[' :: h6 ++ ']' :: ':' :: ds := by
    simp only [List.mem_append, List.mem_cons, not_or]
    exact ⟨⟨by decide, hhq⟩, by decide, by decide, not_mem_of_decimal hall (by decide)⟩
  rw [parseEnode_enodeText id _ q hat hq' hq, splitHostPort_bracketed h6 ds hhb]
  simp only [jsNumber_decimalDigits ds hne hall]
  by_cases hlt : digitsValue 10 ds < doubleOverflowBound
  · have : overflowsDouble (digitsValue 10 ds) 0 = false := by
      show decide (doubleOverflowBound ≤ digitsValue 10 ds * 10 ^ 0) = false
      simp; omega
    simp [roundMV, this, JSNumber.isFinite, hid, hh, hlt]
  · have : overflowsDouble (digitsValue 10 ds) 0 = true := by
      show decide (doubleOverflowBound ≤ digitsValue 10 ds * 10 ^ 0) = true
      simp; omega
    simp [roundMV, this, JSNumber.isFinite, hlt]

/-! ## Address parser: claims C8, C9, C10 -/

/-- C8 as stated fails: connection strings whose port segment is empty, negative (`-5`) or
fractional (`1.5`) are accepted by `parseEnode`, with ports `0`, `-5` and `1.5`. -/
theorem parseEnode_accepts_nonInteger_ports :
    HasPortSegment "enode://abc@10.0.0.5:".toList [] ∧
    parseEnode "enode://abc@10.0.0.5:".toList
      = some ⟨"abc".toList, "10.0.0.5".toList, .finite false 0 0, []⟩ ∧
    HasPortSegment "enode://abc@10.0.0.5:-5".toList "-5".toList ∧
    parseEnode "enode://abc@10.0.0.5:-5".toList
      = some ⟨"abc".toList, "10.0.0.5".toList, .finite true 5 0, []⟩ ∧
    HasPortSegment "enode://abc@10.0.0.5:1.5".toList "1.5".toList ∧
    parseEnode "enode://abc@10.0.0.5:1.5".toList
      = some ⟨"abc".toList, "10.0.0.5".toList, .finite false 15 (-1), []⟩ := by
  refine ⟨?_, by decide, ?_, by decide, ?_, by decide⟩
  · exact ⟨"abc".toList, "10.0.0.5:".toList, [], by decide, by decide, by decide, Or.inl rfl,
      Or.inl ⟨"10.0.0.5".toList, by decide, by decide, by decide⟩⟩
  · exact ⟨"abc".toList, "10.0.0.5:-5".toList, [], by decide, by decide, by decide, Or.inl rfl,
      Or.inl ⟨"10.0.0.5".toList, by decide, by decide, by decide⟩⟩
  · exact ⟨"abc".toList, "10.0.0.5:1.5".toList, [], by decide, by decide, by decide, Or.inl rfl,
      Or.inl ⟨"10.0.0.5".toList, by decide, by decide, by decide⟩⟩

/-- C8, amended: for every connection string whose port segment does not convert to a finite
number under `Number` (the conversion gives `NaN` or an infinity), `parseEnode` returns
invalid (`null`). -/
theorem parseEnode_nonFinite_port (s port : List Char) (h : HasPortSegment s port)
    (hport : (jsNumber port).isFinite = false) : parseEnode s = none := by
  obtain ⟨id, hostPart, q, rfl, hid, hq, hquery, hsplit⟩ := h
  rw [parseEnode_enodeText id hostPart q hid hq hquery]
  rcases hsplit with ⟨host, rfl, hp, hh⟩ | ⟨h6, rfl, hb⟩
  · rw [splitHostPort_bare host port hp hh]
    simp [hport]
  · rw [splitHostPort_bracketed h6 port hb]
    simp [hport]

/-- C8, amended, at the port segment `30x` of `enode://abc@10.0.0.5:30x`. -/
theorem parseEnode_nonFinite_port_witness :
    HasPortSegment "enode://abc@10.0.0.5:30x".toList "30x".toList ∧
    (jsNumber "30x".toList).isFinite = false ∧
    parseEnode "enode://abc@10.0.0.5:30x".toList = none :=
  have h : HasPortSegment "enode://abc@10.0.0.5:30x".toList "30x".toList :=
    ⟨"abc".toList, "10.0.0.5:30x".toList, [], by decide, by decide, by decide, Or.inl rfl,
      Or.inl ⟨"10.0.0.5".toList, by decide, by decide, by decide⟩⟩
  ⟨h, by decide, parseEnode_nonFinite_port _ _ h (by decide)⟩

/-- C9: `parseEnode` is total and returns invalid (`null`) on every malformed string: one
without the scheme prefix `enode://`, without `@`, with an empty identity before the first
`@`, with a host part that begins with `[` and has no `]`, or without a port-separating colon
(no `:` in a bare host part, or no `:` right after the closing `]`). -/
theorem parseEnode_malformed (s : List Char) (h : Malformed s) : parseEnode s = none := by
  rcases h with h | h | ⟨t, rfl⟩ | ⟨id, hostPart, q, rfl, hid, hq, hquery, hbad⟩
  · have : jsStartsWith s enodeScheme = false := by
      rw [Bool.eq_false_iff, Ne, jsStartsWith_iff]; exact h
    simp [parseEnode, this]
  · unfold parseEnode
    split
    · rfl
    · rw [jsIndexOf_eq_none h]
  · have hidx : jsIndexOf '@' (enodeScheme ++ '@' :: t) = some 8 :=
      jsIndexOf_append_cons t (by decide)
    have hslice : jsSlice (enodeScheme ++ '@' :: t) 8 8 = [] := by
      simp [jsSlice, enodeScheme]
    unfold parseEnode
    simp only [hidx, hslice, true_or, if_true]
    split
    · rfl
    · split <;> rfl
  · rw [parseEnode_enodeText id hostPart q hid hq hquery]
    rcases hbad with ⟨h1, h2⟩ | ⟨h1, h2⟩ | ⟨h6, after, rfl, h1, h2⟩
    · rw [splitHostPort_unclosed hostPart h1 h2]
    · rw [splitHostPort_noColon hostPart h1 h2]
    · rw [splitHostPort_noColonAfterBracket h6 after h1 h2]

/-- C9 at the string `enode://abc@10.0.0.5`, which has no port-separating colon. -/
theorem parseEnode_malformed_witness :
    Malformed "enode://abc@10.0.0.5".toList ∧ parseEnode "enode://abc@10.0.0.5".toList = none :=
  have h : Malformed "enode://abc@10.0.0.5".toList :=
    Or.inr (Or.inr (Or.inr ⟨"abc".toList, "10.0.0.5".toList, [], by decide, by decide,
      by decide, Or.inl rfl, Or.inr (Or.inl ⟨by decide, by decide⟩)⟩))
  ⟨h, parseEnode_malformed _ h⟩

/-- C10 as stated fails: the canonical decimal text of `10^400` as port converts to
`Infinity`, and `parseEnode` returns invalid (`null`). -/
theorem parseEnode_huge_port_invalid :
    parseEnode (enodeText "abc".toList ("10.0.0.5".toList ++ ':' :: Nat.toDigits 10 (10 ^ 400)) [])
      = none := by
  obtain ⟨hne, hall, hval⟩ := toDigits_decimal (10 ^ 400)
  rw [parseEnode_bare_decimal _ _ _ _ (by decide) (by decide) (by decide) (by decide)
    (by decide) (Or.inl rfl) hne hall, hval, if_neg]
  unfold doubleOverflowBound
  norm_num

/-- C10, amended: for a non-empty identity `id` without `@`, a non-empty bare host `h` without
`?` that does not start with `[`, a query `q` that is empty or starts with `?`, and a natural
number `p` written in canonical decimal, `parseEnode` returns exactly identity `id`, host `h`,
the Number value of `p` as port and query `q` when `p < 2^1024 - 2^970`, and invalid for
larger `p`; the same holds for a bracketed host `[h6]` with `h6` non-empty and without `]` and
`?`, where the host returned is `h6`. -/
theorem parseEnode_wellFormed (id h h6 q : List Char) (p : Nat)
    (hid : id ≠ []) (hat : '@' ∉ id)
    (hh : h ≠ []) (hhq : '?' ∉ h) (hhb : h.head? ≠ some '[')
    (hh6 : h6 ≠ []) (hh6q : '?' ∉ h6) (hh6b : ']' ∉ h6) (hq : IsQuery q) :
    (p < doubleOverflowBound →
      parseEnode (enodeText id (h ++ ':' :: Nat.toDigits 10 p) q)
        = some { nodeId := id, ip := h, tcpPort := JSNumber.ofNat p, query := q } ∧
      parseEnode (enodeText id ('[' :: h6 ++ ']' :: ':' :: Nat.toDigits 10 p) q)
        = some { nodeId := id, ip := h6, tcpPort := JSNumber.ofNat p, query := q }) ∧
    (doubleOverflowBound ≤ p →
      parseEnode (enodeText id (h ++ ':' :: Nat.toDigits 10 p) q) = none ∧
      parseEnode (enodeText id ('[' :: h6 ++ ']' :: ':' :: Nat.toDigits 10 p) q) = none) := by
  obtain ⟨hne, hall, hval⟩ := toDigits_decimal p
  rw [parseEnode_bare_decimal id h _ q hid hat hh hhq hhb hq hne hall,
    parseEnode_bracketed_decimal id h6 _ q hid hat hh6 hh6q hh6b hq hne hall, hval]
  constructor
  · intro hlt; simp [hlt, JSNumber.ofNat]
  · intro hge; simp [Nat.not_lt.2 hge]

/-- C10, amended, at `enode://abc@10.0.0.5:30303` and `enode://abc@[::1]:30303`. -/
theorem parseEnode_wellFormed_witness :
    parseEnode "enode://abc@10.0.0.5:30303".toList
      = some ⟨"abc".toList, "10.0.0.5".toList, JSNumber.ofNat 30303, []⟩ ∧
    parseEnode "enode://abc@[::1]:30303".toList
      = some ⟨"abc".toList, "::1".toList, JSNumber.ofNat 30303, []⟩ :=
  (parseEnode_wellFormed "abc".toList "10.0.0.5".toList "::1".toList [] 30303
    (by decide) (by decide) (by decide) (by decide) (by decide) (by decide) (by decide)
    (by decide) (Or.inl rfl)).1 (by decide)

/-! ## Lemmas on the peer store -/

theorem findNode_node_id {nodes : List NodeRow} {id : List Char} {r : NodeRow}
    (h : findNode nodes id = some r) : r.node_id = id := by
  have := List.find?_some h
  simpa using this

theorem findNode_eq_none_iff (nodes : List NodeRow) (id : List Char) :
    findNode nodes id = none ↔ nodes.any (fun r => r.node_id = id) = false := by
  simp [findNode, List.find?_eq_none]

theorem findNode_map_conflict (nodes : List NodeRow) (item : NodeRow) (id : List Char) :
    findNode (nodes.map fun r => if r.node_id = item.node_id then conflictUpdate r item else r) id
      = (findNode nodes id).map
          fun r => if r.node_id = item.node_id then conflictUpdate r item else r := by
  have hcomp : ((fun r : NodeRow => decide (r.node_id = id)) ∘
      fun r => if r.node_id = item.node_id then conflictUpdate r item else r)
      = fun r => decide (r.node_id = id) := by
    funext r
    simp only [Function.comp]
    split <;> rfl
  unfold findNode
  rw [List.find?_map, hcomp]

theorem findNode_append_singleton (nodes : List NodeRow) (item : NodeRow) (id : List Char) :
    findNode (nodes ++ [item]) id =
      match findNode nodes id with
      | some r => some r
      | none => if item.node_id = id then some item else none := by
  induction nodes with
  | nil => by_cases h : item.node_id = id <;> simp [findNode, List.find?, h]
  | cons x xs ih =>
    by_cases h : x.node_id = id
    · simp [findNode, List.find?, h]
    · simp only [findNode, List.cons_append, List.find?, h, decide_False] at ih ⊢
      exact ih

/-- The stored record of `id` after one `INSERT ... ON CONFLICT DO UPDATE`. -/
theorem findNode_upsertNode (nodes : List NodeRow) (item : NodeRow) (id : List Char) :
    findNode (upsertNode nodes item) id =
      if item.node_id = id then
        match findNode nodes id with
        | some old => some (conflictUpdate old item)
        | none => some item
      else findNode nodes id := by
  unfold upsertNode
  by_cases hany : nodes.any (fun r => r.node_id = item.node_id) = true
  · rw [if_pos hany, findNode_map_conflict]
    by_cases hid : item.node_id = id
    · rw [if_pos hid]
      cases hf : findNode nodes id with
      | none =>
        rw [findNode_eq_none_iff, ← hid] at hf
        rw [hf] at hany; exact absurd hany (by simp)
      | some old =>
        have := findNode_node_id hf
        simp [this, hid]
    · rw [if_neg hid]
      cases hf : findNode nodes id with
      | none => rfl
      | some old =>
        have := findNode_node_id hf
        have hne : old.node_id ≠ item.node_id := by rw [this]; exact Ne.symm hid
        simp [hne]
  · rw [if_neg hany]
    have hnone : findNode nodes item.node_id = none := by
      rw [findNode_eq_none_iff]; simpa using hany
    rw [findNode_append_singleton]
    by_cases hid : item.node_id = id
    · rw [if_pos hid, if_pos hid, ← hid, hnone]
    · rw [if_neg hid, if_neg hid]
      cases findNode nodes id <;> rfl

/-- The stored record of `id` after the statement loop over a map `unique` whose keys are
distinct. -/
theorem findNode_foldl_upsertNode (items : List NodeRow) :
    ∀ (nodes : List NodeRow) (id : List Char), (items.map (·.node_id)).Nodup →
    findNode (items.foldl upsertNode nodes) id =
      match items.find? (fun it => it.node_id = id) with
      | some item =>
        (match findNode nodes id with
          | some old => some (conflictUpdate old item)
          | none => some item)
      | none => findNode nodes id := by
  induction items with
  | nil => intro nodes id _; rfl
  | cons it rest ih =>
    intro nodes id hnd
    rw [List.map_cons, List.nodup_cons] at hnd
    rw [List.foldl_cons, ih _ _ hnd.2, findNode_upsertNode]
    by_cases hid : it.node_id = id
    · have hrest : rest.find? (fun it => it.node_id = id) = none := by
        rw [List.find?_eq_none]
        intro x hx hxid
        exact hnd.1 (List.mem_map.2 ⟨x, hx, by simpa [hid] using hxid⟩)
      simp [List.find?, hid, hrest]
    · simp [List.find?, hid]

/-- The `unique` map keeps distinct keys, and holds for each identity its first parseable
sighting in the batch. -/
theorem uniqueStep_foldl (env : Collaborators) (now : Nat) (peers : List RawPeer) :
    ∀ acc : List NodeRow, (acc.map (·.node_id)).Nodup →
      ((peers.foldl (uniqueStep env now) acc).map (·.node_id)).Nodup ∧
      ∀ id, (peers.foldl (uniqueStep env now) acc).find? (fun it => it.node_id = id) =
        match acc.find? (fun it => it.node_id = id) with
        | some x => some x
        | none => (firstSighting id peers).map fun pr => mkItem env now pr.1 pr.2 := by
  induction peers with
  | nil =>
    intro acc hacc
    refine ⟨hacc, fun id => ?_⟩
    simp only [List.foldl_nil]
    cases hf : acc.find? (fun it => it.node_id = id) <;> simp [firstSighting]
  | cons peer peers ih =>
    intro acc hacc
    rw [List.foldl_cons]
    cases hp : parseEnode peer.enode with
    | none =>
      have hstep : uniqueStep env now acc peer = acc := by simp [uniqueStep, hp]
      rw [hstep]
      refine ⟨(ih acc hacc).1, fun id => ?_⟩
      rw [(ih acc hacc).2 id]
      simp [firstSighting, hp]
    | some parsed =>
      by_cases hany : acc.any (fun item => item.node_id = parsed.nodeId) = true
      · have hstep : uniqueStep env now acc peer = acc := by simp [uniqueStep, hp, hany]
        rw [hstep]
        refine ⟨(ih acc hacc).1, fun id => ?_⟩
        rw [(ih acc hacc).2 id]
        cases hf : acc.find? (fun it => it.node_id = id) with
        | some x => rfl
        | none =>
          have hne : parsed.nodeId ≠ id := by
            rintro rfl
            rw [List.find?_eq_none] at hf
            obtain ⟨x, hx, hxid⟩ := List.any_eq_true.1 hany
            exact hf x hx hxid
          simp [firstSighting, hp, hne]
      · have hstep : uniqueStep env now acc peer = acc ++ [mkItem env now peer parsed] := by
          simp [uniqueStep, hp, hany]
        have hnot : ∀ x ∈ acc, x.node_id ≠ parsed.nodeId := by
          intro x hx hxid
          exact hany (List.any_eq_true.2 ⟨x, hx, by simpa using hxid⟩)
        have hacc' : ((acc ++ [mkItem env now peer parsed]).map (·.node_id)).Nodup := by
          rw [List.map_append, List.nodup_append]
          refine ⟨hacc, by simp, ?_⟩
          intro a ha hb
          obtain ⟨x, hx, rfl⟩ := List.mem_map.1 ha
          have : x.node_id = parsed.nodeId := by simpa [mkItem] using hb
          exact hnot x hx this
        rw [hstep]
        refine ⟨(ih _ hacc').1, fun id => ?_⟩
        rw [(ih _ hacc').2 id, List.find?_append]
        cases hf : acc.find? (fun it => it.node_id = id) with
        | some x => rfl
        | none =>
          by_cases hid : parsed.nodeId = id
          · simp [List.find?, mkItem, hid, firstSighting, hp]
          · simp [List.find?, mkItem, hid, firstSighting, hp]

theorem collectUnique_nodup (env : Collaborators) (now : Nat) (peers : List RawPeer) :
    ((collectUnique env now peers).map (·.node_id)).Nodup :=
  (uniqueStep_foldl env now peers [] List.nodup_nil).1

theorem collectUnique_find (env : Collaborators) (now : Nat) (peers : List RawPeer)
    (id : List Char) :
    (collectUnique env now peers).find? (fun it => it.node_id = id) =
      (firstSighting id peers).map fun pr => mkItem env now pr.1 pr.2 :=
  (uniqueStep_foldl env now peers [] List.nodup_nil).2 id

/-- The stored record of every identity after `upsertPeers`: merged with, or created from, the
first parseable sighting of the identity in the batch, and untouched when the batch has none. -/
theorem findNode_upsertPeers (env : Collaborators) (enableExpansion : Bool) (now : Nat)
    (peers : List RawPeer) (db : Database) (id : List Char) :
    findNode (upsertPeers env enableExpansion now peers db).nodes id =
      match firstSighting id peers with
      | some (peer, parsed) =>
        (match findNode db.nodes id with
          | some old => some (conflictUpdate old (mkItem env now peer parsed))
          | none => some (mkItem env now peer parsed))
      | none => findNode db.nodes id := by
  have hfind := collectUnique_find env now peers id
  unfold upsertPeers
  by_cases hp : peers = []
  · subst hp; rfl
  · rw [if_neg hp]
    by_cases hu : collectUnique env now peers = []
    · rw [if_pos hu]
      rw [hu] at hfind
      cases hs : firstSighting id peers with
      | none => rfl
      | some pr => rw [hs] at hfind; simp at hfind
    · rw [if_neg hu]
      show findNode ((collectUnique env now peers).foldl upsertNode db.nodes) id = _
      rw [findNode_foldl_upsertNode _ _ _ (collectUnique_nodup env now peers), hfind]
      cases hs : firstSighting id peers with
      | none => rfl
      | some pr => obtain ⟨peer, parsed⟩ := pr; rfl

theorem firstSighting_nodeId {id : List Char} {peers : List RawPeer} {peer : RawPeer}
    {parsed : ParsedEnode} (h : firstSighting id peers = some (peer, parsed)) :
    parsed.nodeId = id ∧ parseEnode peer.enode = some parsed ∧ peer ∈ peers := by
  induction peers with
  | nil => simp [firstSighting] at h
  | cons x xs ih =>
    unfold firstSighting at h
    cases hp : parseEnode x.enode with
    | none =>
      rw [hp] at h
      obtain ⟨h1, h2, h3⟩ := ih h
      exact ⟨h1, h2, List.mem_cons_of_mem _ h3⟩
    | some px =>
      rw [hp] at h
      by_cases hid : px.nodeId = id
      · simp only [hid, if_true, Option.some.injEq, Prod.mk.injEq] at h
        obtain ⟨rfl, rfl⟩ := h
        exact ⟨hid, hp, List.mem_cons_self _ _⟩
      · simp only [hid, if_false] at h
        obtain ⟨h1, h2, h3⟩ := ih h
        exact ⟨h1, h2, List.mem_cons_of_mem _ h3⟩

theorem firstSighting_eq_none_iff (id : List Char) (peers : List RawPeer) :
    firstSighting id peers = none ↔ sightingCount id peers = 0 := by
  induction peers with
  | nil => simp [firstSighting, sightingCount]
  | cons x xs ih =>
    unfold firstSighting
    cases hp : parseEnode x.enode with
    | none =>
      simp only [sightingCount, List.filter_cons, hp] at ih ⊢
      simpa using ih
    | some px =>
      by_cases hid : px.nodeId = id
      · simp [sightingCount, List.filter_cons, hp, hid]
      · simp only [sightingCount, List.filter_cons, hp, hid, if_false] at ih ⊢
        simpa [hid] using ih

theorem countP_upsertNode (nodes : List NodeRow) (item : NodeRow) (id : List Char) :
    (upsertNode nodes item).countP (fun r => r.node_id = id) =
      nodes.countP (fun r => r.node_id = id) +
        (if item.node_id = id ∧ findNode nodes id = none then 1 else 0) := by
  unfold upsertNode
  by_cases hany : nodes.any (fun r => r.node_id = item.node_id) = true
  · rw [if_pos hany, List.countP_map]
    have hcomp : ((fun r : NodeRow => decide (r.node_id = id)) ∘
        fun r => if r.node_id = item.node_id then conflictUpdate r item else r)
        = fun r => decide (r.node_id = id) := by
      funext r
      simp only [Function.comp]
      split <;> rfl
    rw [hcomp, if_neg, Nat.add_zero]
    rintro ⟨hid, hnone⟩
    rw [findNode_eq_none_iff, ← hid] at hnone
    rw [hnone] at hany; exact absurd hany (by simp)
  · rw [if_neg hany, List.countP_append]
    have hnone : findNode nodes item.node_id = none := by
      rw [findNode_eq_none_iff]; simpa using hany
    by_cases hid : item.node_id = id
    · rw [← hid, if_pos ⟨rfl, hnone⟩]; simp [List.countP_cons]
    · rw [if_neg (fun h => hid h.1)]; simp [List.countP_cons, hid]

theorem countP_foldl_upsertNode (items : List NodeRow) :
    ∀ (nodes : List NodeRow) (id : List Char), (items.map (·.node_id)).Nodup →
    (items.foldl upsertNode nodes).countP (fun r => r.node_id = id) =
      nodes.countP (fun r => r.node_id = id) +
        (if (items.find? (fun it => it.node_id = id)).isSome = true ∧ findNode nodes id = none
          then 1 else 0) := by
  induction items with
  | nil => intro nodes id _; simp
  | cons it rest ih =>
    intro nodes id hnd
    rw [List.map_cons, List.nodup_cons] at hnd
    rw [List.foldl_cons, ih _ _ hnd.2, countP_upsertNode, findNode_upsertNode]
    by_cases hid : it.node_id = id
    · have hrest : rest.find? (fun it => it.node_id = id) = none := by
        rw [List.find?_eq_none]
        intro x hx hxid
        exact hnd.1 (List.mem_map.2 ⟨x, hx, by simpa [hid] using hxid⟩)
      simp [List.find?, hid, hrest]
    · simp [List.find?, hid]

/-- The number of rows of an identity after `upsertPeers`. -/
theorem countP_upsertPeers (env : Collaborators) (enableExpansion : Bool) (now : Nat)
    (peers : List RawPeer) (db : Database) (id : List Char) :
    (upsertPeers env enableExpansion now peers db).nodes.countP (fun r => r.node_id = id) =
      db.nodes.countP (fun r => r.node_id = id) +
        (if (firstSighting id peers).isSome = true ∧ findNode db.nodes id = none
          then 1 else 0) := by
  have hfind := collectUnique_find env now peers id
  unfold upsertPeers
  by_cases hp : peers = []
  · subst hp; simp [firstSighting]
  · rw [if_neg hp]
    by_cases hu : collectUnique env now peers = []
    · rw [if_pos hu]
      rw [hu] at hfind
      cases hs : firstSighting id peers with
      | none => simp
      | some pr => rw [hs] at hfind; simp at hfind
    · rw [if_neg hu]
      show ((collectUnique env now peers).foldl upsertNode db.nodes).countP _ = _
      rw [countP_foldl_upsertNode _ _ _ (collectUnique_nodup env now peers), hfind]
      cases hs : firstSighting id peers <;> simp

/-- The stored `seen_count` of an identity after `upsertPeers`: one more than before (one for
a new identity) when the batch sights the identity, unchanged otherwise. -/
theorem seenCount_upsertPeers (env : Collaborators) (enableExpansion : Bool) (now : Nat)
    (peers : List RawPeer) (db : Database) (id : List Char) :
    (findNode (upsertPeers env enableExpansion now peers db).nodes id).map (·.seen_count) =
      if sightingCount id peers = 0 then (findNode db.nodes id).map (·.seen_count)
      else some (((findNode db.nodes id).map (·.seen_count)).getD 0 + 1) := by
  rw [findNode_upsertPeers]
  cases hs : firstSighting id peers with
  | none =>
    rw [if_pos ((firstSighting_eq_none_iff id peers).1 hs)]
  | some pr =>
    obtain ⟨peer, parsed⟩ := pr
    have hne : sightingCount id peers ≠ 0 := by
      intro h0
      rw [(firstSighting_eq_none_iff id peers).2 h0] at hs
      exact absurd hs (by simp)
    rw [if_neg hne]
    cases findNode db.nodes id <;> simp [conflictUpdate, mkItem]

theorem seenCount_upsertTicks (env : Collaborators) (enableExpansion : Bool)
    (ticks : List (Nat × List RawPeer)) : ∀ (db : Database) (id : List Char),
    (findNode (upsertTicks env enableExpansion ticks db).nodes id).map (·.seen_count) =
      if ticksSighting id ticks = 0 then (findNode db.nodes id).map (·.seen_count)
      else some (((findNode db.nodes id).map (·.seen_count)).getD 0 + ticksSighting id ticks) := by
  induction ticks with
  | nil => intro db id; simp [upsertTicks, ticksSighting]
  | cons t ticks ih =>
    intro db id
    obtain ⟨now, peers⟩ := t
    rw [upsertTicks, ih, seenCount_upsertPeers]
    by_cases h0 : sightingCount id peers = 0
    · have ht : ticksSighting id ((now, peers) :: ticks) = ticksSighting id ticks := by
        simp [ticksSighting, List.filter_cons, h0]
      rw [ht, if_pos h0]
    · have ht : ticksSighting id ((now, peers) :: ticks) = ticksSighting id ticks + 1 := by
        simp [ticksSighting, List.filter_cons, Nat.pos_of_ne_zero h0]
      rw [ht, if_neg h0, if_neg (Nat.succ_ne_zero _)]
      by_cases hn : ticksSighting id ticks = 0
      · rw [if_pos hn, hn]
      · rw [if_neg hn]
        simp only [Option.getD_some, Option.some.injEq]
        omega

/-! ## Peer store: claims C1, C2, C3, C4 -/

/-- C1: whenever a batch passed to `upsertPeers` sights the same identity two or more times,
the stored record of that identity has afterwards a `seen_count` exactly one greater than
before the call, and exactly 1 when the identity was unseen before. -/
theorem upsertPeers_seenCount_once (env : Collaborators) (enableExpansion : Bool) (now : Nat)
    (peers : List RawPeer) (db : Database) (id : List Char)
    (h : 2 ≤ sightingCount id peers) :
    (findNode (upsertPeers env enableExpansion now peers db).nodes id).map (·.seen_count) =
      some (match findNode db.nodes id with
        | some old => old.seen_count + 1
        | none => 1) := by
  rw [seenCount_upsertPeers, if_neg (by omega)]
  cases findNode db.nodes id <;> simp

/-- C1 on a batch with two sightings of the new identity `abc`, and on the same batch
ingested a second time. -/
theorem upsertPeers_seenCount_once_witness :
    2 ≤ sightingCount "abc".toList exampleBatch ∧
    (findNode (upsertPeers exampleEnv true 1000 exampleBatch ⟨[], []⟩).nodes "abc".toList).map
      (·.seen_count) = some 1 ∧
    (findNode (upsertPeers exampleEnv true 5000 exampleBatch
      (upsertPeers exampleEnv true 1000 exampleBatch ⟨[], []⟩)).nodes "abc".toList).map
      (·.seen_count) = some 2 :=
  ⟨by decide,
   upsertPeers_seenCount_once exampleEnv true 1000 exampleBatch ⟨[], []⟩ "abc".toList
     (by decide),
   upsertPeers_seenCount_once exampleEnv true 5000 exampleBatch
     (upsertPeers exampleEnv true 1000 exampleBatch ⟨[], []⟩) "abc".toList (by decide)⟩

/-- C2 as stated fails: on a batch with two parseable sightings of identity `abc` at different
addresses, the stored record carries the connection string, host, port, client name and
capabilities of the earlier sighting, not of the later one. -/
theorem upsertPeers_keeps_earlier_sighting :
    (exampleBatch.map fun peer => (parseEnode peer.enode).map (·.nodeId))
      = [some "abc".toList, some "abc".toList] ∧
    (findNode (upsertPeers exampleEnv true 1000 exampleBatch ⟨[], []⟩).nodes "abc".toList).map
      (fun r => (r.enode, r.ip, r.tcp_port, r.client_name, r.caps))
      = some ("enode://abc@10.0.0.5:30303".toList, "10.0.0.5".toList, JSNumber.ofNat 30303,
          some "geth".toList, "eth/68".toList) := by
  decide

/-- C2, amended: when a batch passed to `upsertPeers` sights an identity, the stored record
carries afterwards the connection string, host, port, client name and capabilities of the
first parseable sighting of that identity in the batch (first one in the batch wins). -/
theorem upsertPeers_first_sighting_wins (env : Collaborators) (enableExpansion : Bool)
    (now : Nat) (peers : List RawPeer) (db : Database) (id : List Char)
    (peer : RawPeer) (parsed : ParsedEnode)
    (h : firstSighting id peers = some (peer, parsed)) :
    ∃ row, findNode (upsertPeers env enableExpansion now peers db).nodes id = some row ∧
      row.enode = peer.enode ∧ row.ip = parsed.ip ∧ row.tcp_port = parsed.tcpPort ∧
      row.client_name = (if peer.name = [] then none else some peer.name) ∧
      row.caps = env.jsonStringify peer.caps := by
  rw [findNode_upsertPeers, h]
  cases findNode db.nodes id with
  | none => exact ⟨_, rfl, rfl, rfl, rfl, rfl, rfl⟩
  | some old => exact ⟨_, rfl, rfl, rfl, rfl, rfl, rfl⟩

/-- C2, amended, on the two-sighting batch: the record holds the address of the first. -/
theorem upsertPeers_first_sighting_wins_witness :
    ∃ row, findNode (upsertPeers exampleEnv true 1000 exampleBatch ⟨[], []⟩).nodes "abc".toList
        = some row ∧
      row.enode = "enode://abc@10.0.0.5:30303".toList ∧ row.ip = "10.0.0.5".toList ∧
      row.tcp_port = JSNumber.ofNat 30303 ∧ row.client_name = some "geth".toList ∧
      row.caps = "eth/68".toList :=
  upsertPeers_first_sighting_wins exampleEnv true 1000 exampleBatch ⟨[], []⟩ "abc".toList
    ⟨"enode://abc@10.0.0.5:30303".toList, "geth".toList, ["eth/68".toList]⟩
    ⟨"abc".toList, "10.0.0.5".toList, JSNumber.ofNat 30303, []⟩ (by decide)

/-- C3: starting from a store without identity `id`, the first `upsertPeers` batch that sights
`id` leaves `seen_count = 1`, and after any sequence of `upsertPeers` calls of which `N ≥ 1`
sight `id` (the others do not), the stored `seen_count` equals `N`. -/
theorem upsertTicks_seenCount (env : Collaborators) (enableExpansion : Bool)
    (db : Database) (id : List Char) (hfresh : findNode db.nodes id = none) :
    (∀ now peers, 0 < sightingCount id peers →
      (findNode (upsertPeers env enableExpansion now peers db).nodes id).map (·.seen_count)
        = some 1) ∧
    (∀ ticks, 1 ≤ ticksSighting id ticks →
      (findNode (upsertTicks env enableExpansion ticks db).nodes id).map (·.seen_count)
        = some (ticksSighting id ticks)) := by
  constructor
  · intro now peers h
    rw [seenCount_upsertPeers, if_neg (by omega), hfresh]; rfl
  · intro ticks h
    rw [seenCount_upsertTicks, if_neg (by omega), hfresh]; simp

/-- C3 on three ticks sighting `abc`, interleaved with two ticks that do not. -/
theorem upsertTicks_seenCount_witness :
    (findNode (upsertTicks exampleEnv false
      [(1000, exampleBatch), (2000, []), (3000, exampleBatch),
       (4000, [⟨"enode://def@10.0.0.9:30303".toList, [], []⟩]), (5000, exampleBatch)]
      ⟨[], []⟩).nodes "abc".toList).map (·.seen_count) = some 3 :=
  (upsertTicks_seenCount exampleEnv false ⟨[], []⟩ "abc".toList rfl).2
    [(1000, exampleBatch), (2000, []), (3000, exampleBatch),
     (4000, [⟨"enode://def@10.0.0.9:30303".toList, [], []⟩]), (5000, exampleBatch)]
    (by decide)

/-- C4: an `upsertPeers` call at time `now` whose batch sights identity `id` (effective
sighting `peer`, parsed as `parsed`) leaves, for a record already stored, the identity and
`first_seen` unchanged, sets `last_seen = now` and overwrites connection string, host and
port with the sighted values; for an unseen identity it creates exactly one record, with
`first_seen = last_seen = now`. -/
theorem upsertPeers_frame (env : Collaborators) (enableExpansion : Bool)
    (now : Nat) (peers : List RawPeer) (db : Database) (id : List Char)
    (peer : RawPeer) (parsed : ParsedEnode)
    (h : firstSighting id peers = some (peer, parsed)) :
    (∀ old, findNode db.nodes id = some old →
      ∃ row, findNode (upsertPeers env enableExpansion now peers db).nodes id = some row ∧
        row.node_id = old.node_id ∧ row.first_seen = old.first_seen ∧ row.last_seen = now ∧
        row.enode = peer.enode ∧ row.ip = parsed.ip ∧ row.tcp_port = parsed.tcpPort) ∧
    (findNode db.nodes id = none →
      (∃ row, findNode (upsertPeers env enableExpansion now peers db).nodes id = some row ∧
        row.node_id = id ∧ row.first_seen = now ∧ row.last_seen = now ∧
        row.enode = peer.enode ∧ row.ip = parsed.ip ∧ row.tcp_port = parsed.tcpPort) ∧
      (upsertPeers env enableExpansion now peers db).nodes.countP (fun r => r.node_id = id)
        = 1) := by
  constructor
  · intro old hold
    rw [findNode_upsertPeers, h, hold]
    exact ⟨_, rfl, rfl, rfl, rfl, rfl, rfl, rfl⟩
  · intro hnone
    constructor
    · rw [findNode_upsertPeers, h, hnone]
      exact ⟨_, rfl, (firstSighting_nodeId h).1, rfl, rfl, rfl, rfl, rfl⟩
    · rw [countP_upsertPeers, h, hnone]
      have : db.nodes.countP (fun r => r.node_id = id) = 0 := by
        rw [List.countP_eq_zero]
        intro r hr hrid
        rw [findNode_eq_none_iff] at hnone
        have hany : db.nodes.any (fun r => decide (r.node_id = id)) = true :=
          List.any_eq_true.2 ⟨r, hr, hrid⟩
        rw [hnone] at hany; exact absurd hany (by simp)
      simp [this]

/-- C4 on the end-to-end scenario: `enode://abc@10.0.0.5:30303` ingested at `t = 1000`, then
the same identity with port `30304` at `t = 5000`. -/
theorem upsertPeers_frame_witness :
    (findNode (upsertPeers exampleEnv false 1000
        [⟨"enode://abc@10.0.0.5:30303".toList, [], []⟩] ⟨[], []⟩).nodes "abc".toList).map
      (fun r => (r.tcp_port, r.seen_count, r.first_seen, r.last_seen))
      = some (JSNumber.ofNat 30303, 1, 1000, 1000) ∧
    ∃ row, findNode (upsertPeers exampleEnv false 5000
        [⟨"enode://abc@10.0.0.5:30304".toList, [], []⟩]
        (upsertPeers exampleEnv false 1000
          [⟨"enode://abc@10.0.0.5:30303".toList, [], []⟩] ⟨[], []⟩)).nodes "abc".toList
        = some row ∧
      row.node_id = "abc".toList ∧ row.first_seen = 1000 ∧ row.last_seen = 5000 ∧
      row.enode = "enode://abc@10.0.0.5:30304".toList ∧ row.ip = "10.0.0.5".toList ∧
      row.tcp_port = JSNumber.ofNat 30304 :=
  ⟨by decide,
   (upsertPeers_frame exampleEnv false 5000 [⟨"enode://abc@10.0.0.5:30304".toList, [], []⟩]
    (upsertPeers exampleEnv false 1000
      [⟨"enode://abc@10.0.0.5:30303".toList, [], []⟩] ⟨[], []⟩) "abc".toList
    ⟨"enode://abc@10.0.0.5:30304".toList, [], []⟩
    ⟨"abc".toList, "10.0.0.5".toList, JSNumber.ofNat 30304, []⟩ (by decide)).1
    (mkItem exampleEnv 1000 ⟨"enode://abc@10.0.0.5:30303".toList, [], []⟩
      ⟨"abc".toList, "10.0.0.5".toList, JSNumber.ofNat 30303, []⟩) (by decide)⟩

/-! ## Lemmas on the expansion scheduler -/

/-- The first loop keeps, in order, the fetched candidates that the backoff test does not
skip, and stops once `remaining` of them are queued. -/
theorem buildQueue_eq (now : Nat) (remaining : Int) (candidates : List CandidateRow) :
    ∀ queue : List CandidateRow, (queue.length : Int) < remaining →
      buildQueue now remaining candidates queue =
        queue ++ (candidates.filter fun c => !backoffSkips now c).take
          (remaining.toNat - queue.length) := by
  induction candidates with
  | nil => intro queue _; simp [buildQueue]
  | cons c cs ih =>
    intro queue hlen
    unfold buildQueue
    by_cases hskip : backoffSkips now c = true
    · rw [if_pos hskip, ih queue hlen]
      simp [List.filter_cons, hskip]
    · rw [if_neg hskip]
      have hfilter : (c :: cs).filter (fun c => !backoffSkips now c)
          = c :: cs.filter (fun c => !backoffSkips now c) := by
        simp [List.filter_cons, hskip]
      rw [hfilter]
      by_cases hfull : (((queue ++ [c]).length : Nat) : Int) ≥ remaining
      · simp only [hfull, if_true]
        have h1 : remaining.toNat - queue.length = 1 := by
          simp only [List.length_append, List.length_singleton] at hfull
          omega
        rw [h1]; rfl
      · simp only [hfull, if_false]
        rw [ih (queue ++ [c]) (by omega)]
        have h1 : remaining.toNat - queue.length
            = (remaining.toNat - (queue ++ [c]).length) + 1 := by
          simp only [List.length_append, List.length_singleton] at hfull ⊢
          omega
        rw [h1, List.take_succ_cons, List.append_assoc]; rfl

/-- The second loop attempts the queued candidates in order until the window count reaches
the rate limit. -/
theorem processQueue_eq (expansionRate now : Nat) (rpc : List Char → RpcOutcome)
    (queue : List CandidateRow) : ∀ r : ExpansionResult, r.state.count < expansionRate →
      processQueue expansionRate now rpc queue r =
        { state := { r.state with
            count := r.state.count + min queue.length (expansionRate - r.state.count) }
          candidates := recordAttempts now rpc r.candidates
            (queue.take (expansionRate - r.state.count))
          calls := r.calls ++ (queue.take (expansionRate - r.state.count)).map (·.enode) } := by
  induction queue with
  | nil => intro r _; simp [processQueue, recordAttempts]
  | cons c q ih =>
    intro r hlt
    unfold processQueue
    by_cases hfull : r.state.count + 1 ≥ expansionRate
    · simp only [hfull, if_true]
      have h1 : expansionRate - r.state.count = 1 := by omega
      simp [h1, recordAttempts]
    · simp only [hfull, if_false]
      rw [ih _ (by simpa using Nat.lt_of_not_ge hfull)]
      have h1 : expansionRate - r.state.count = (expansionRate - (r.state.count + 1)) + 1 := by
        omega
      rw [h1]
      simp only [List.take_succ_cons, List.map_cons, List.length_cons, recordAttempts,
        List.foldl_cons, List.append_assoc, List.singleton_append]
      congr 2
      omega

/-- Closed form of an enabled `runExpansion` invocation. -/
theorem runExpansion_eq (cfg : ExpansionConfig) (now : Nat) (rpc : List Char → RpcOutcome)
    (st : ExpansionState) (table : List CandidateRow) (hen : cfg.enableExpansion = true) :
    runExpansion cfg now rpc st table =
      { state := { windowStart := (windowCheck now st).windowStart
                   count := (windowCheck now st).count
                     + (attemptedCandidates cfg now st table).length }
        candidates := recordAttempts now rpc table (attemptedCandidates cfg now st table)
        calls := (attemptedCandidates cfg now st table).map (·.enode) } := by
  unfold runExpansion attemptedCandidates
  simp only [hen, Bool.true_eq_false, if_false]
  by_cases hrem : (cfg.expansionRate : Int) - ((windowCheck now st).count : Int) ≤ 0
  · have h0 : cfg.expansionRate - (windowCheck now st).count = 0 := by omega
    simp [hrem, h0, recordAttempts]
  · simp only [hrem, if_false]
    have hlt : (windowCheck now st).count < cfg.expansionRate := by omega
    rw [buildQueue_eq _ _ _ [] (by simpa using Int.lt_of_not_ge hrem)]
    have htn : ((cfg.expansionRate : Int) - ((windowCheck now st).count : Int)).toNat
        = cfg.expansionRate - (windowCheck now st).count := by omega
    simp only [List.nil_append, List.length_nil, Nat.sub_zero, htn]
    rw [processQueue_eq _ _ _ _ _ hlt]
    simp only [List.nil_append]
    have htake : ∀ l : List CandidateRow,
        (l.take (cfg.expansionRate - (windowCheck now st).count)).take
          (cfg.expansionRate - (windowCheck now st).count)
        = l.take (cfg.expansionRate - (windowCheck now st).count) := by
      intro l; rw [List.take_take, Nat.min_self]
    rw [htake]
    congr 2
    simp only [List.length_take]
    omega

theorem attemptedCandidates_length_le (cfg : ExpansionConfig) (now : Nat) (st : ExpansionState)
    (table : List CandidateRow) :
    (attemptedCandidates cfg now st table).length
      ≤ cfg.expansionRate - (windowCheck now st).count := by
  unfold attemptedCandidates
  rw [List.length_take]
  exact Nat.min_le_left _ _

theorem windowCheck_cases (now : Nat) (st : ExpansionState) :
    (windowCheck now st = st ∧ (now : Int) - (st.windowStart : Int) < 60000) ∨
    (windowCheck now st = { windowStart := now, count := 0 } ∧ st.windowStart + 60000 ≤ now) := by
  unfold windowCheck
  by_cases h : (now : Int) - (st.windowStart : Int) ≥ 60000
  · right; rw [if_pos h]; exact ⟨rfl, by omega⟩
  · left; rw [if_neg h]; exact ⟨rfl, by omega⟩

theorem callsInFixedWindow_cons (e : ExpansionLogEntry) (log : List ExpansionLogEntry)
    (w : Nat) :
    callsInFixedWindow (e :: log) w
      = (if e.windowStart = w then e.calls else 0) + callsInFixedWindow log w := by
  by_cases h : e.windowStart = w <;> simp [callsInFixedWindow, List.filter_cons, h]

theorem callsInFixedWindow_eq_zero (log : List ExpansionLogEntry) (w : Nat)
    (h : ∀ e ∈ log, w < e.windowStart) : callsInFixedWindow log w = 0 := by
  induction log with
  | nil => rfl
  | cons e log ih =>
    rw [callsInFixedWindow_cons, ih (fun x hx => h x (List.mem_cons_of_mem _ hx))]
    have := h e (List.mem_cons_self _ _)
    rw [if_neg (by omega)]

theorem expansionRun_disabled (cfg : ExpansionConfig) (hen : cfg.enableExpansion = false)
    (ticks : List ExpansionTick) : ∀ (st : ExpansionState) (table : List CandidateRow),
    ∀ e ∈ expansionRun cfg ticks st table, e.calls = 0 := by
  induction ticks with
  | nil => intro st table e he; simp [expansionRun] at he
  | cons t ticks ih =>
    intro st table e he
    simp only [expansionRun, List.mem_cons] at he
    rcases he with rfl | he
    · simp [runExpansion, hen]
    · exact ih _ _ e he

theorem callsInFixedWindow_of_no_calls (log : List ExpansionLogEntry) (w : Nat)
    (h : ∀ e ∈ log, e.calls = 0) : callsInFixedWindow log w = 0 := by
  induction log with
  | nil => rfl
  | cons e log ih =>
    rw [callsInFixedWindow_cons, ih (fun x hx => h x (List.mem_cons_of_mem _ hx)),
      h e (List.mem_cons_self _ _)]
    simp

/-- Budget invariant of a run of enabled invocations: window starts never decrease, and the
calls logged under the current window start, added to the current count, stay within the rate
limit; hence so do the calls logged under any window start. -/
theorem expansionRun_budget (cfg : ExpansionConfig) (hen : cfg.enableExpansion = true)
    (ticks : List ExpansionTick) : ∀ (st : ExpansionState) (table : List CandidateRow),
    st.count ≤ cfg.expansionRate →
      (∀ e ∈ expansionRun cfg ticks st table, st.windowStart ≤ e.windowStart) ∧
      callsInFixedWindow (expansionRun cfg ticks st table) st.windowStart + st.count
        ≤ cfg.expansionRate ∧
      ∀ w, callsInFixedWindow (expansionRun cfg ticks st table) w ≤ cfg.expansionRate := by
  induction ticks with
  | nil =>
    intro st table hst
    refine ⟨fun e he => by simp [expansionRun] at he, ?_, fun w => ?_⟩
    · simpa [expansionRun, callsInFixedWindow] using hst
    · simp [expansionRun, callsInFixedWindow]
  | cons t ticks ih =>
    intro st table hst
    simp only [expansionRun]
    rw [runExpansion_eq cfg t.now t.rpc st _ hen]
    simp only [List.length_map]
    have hk := attemptedCandidates_length_le cfg t.now st
      (t.enqueued.foldl insertCandidateIfAbsent table)
    generalize (attemptedCandidates cfg t.now st
      (t.enqueued.foldl insertCandidateIfAbsent table)) = att at hk ⊢
    generalize recordAttempts t.now t.rpc
      (t.enqueued.foldl insertCandidateIfAbsent table) att = table' 
    have hst1 : (windowCheck t.now st).count ≤ cfg.expansionRate := by
      rcases windowCheck_cases t.now st with ⟨h, _⟩ | ⟨h, _⟩ <;> rw [h]
      · exact hst
      · exact Nat.zero_le _
    obtain ⟨ih1, ih2, ih3⟩ := ih
      { windowStart := (windowCheck t.now st).windowStart,
        count := (windowCheck t.now st).count + att.length } table' (by simp only; omega)
    simp only at ih1 ih2
    have hws : st.windowStart ≤ (windowCheck t.now st).windowStart := by
      rcases windowCheck_cases t.now st with ⟨h, _⟩ | ⟨h, h'⟩ <;> rw [h]
      simp only; omega
    refine ⟨?_, ?_, fun w => ?_⟩
    · intro e he
      rcases List.mem_cons.1 he with rfl | he
      · exact hws
      · exact le_trans hws (ih1 e he)
    · rw [callsInFixedWindow_cons]
      simp only
      rcases windowCheck_cases t.now st with ⟨h, _⟩ | ⟨h, h'⟩
      · rw [h] at ih2 ⊢
        rw [if_pos rfl]; omega
      · rw [h] at ih1 ⊢
        simp only at ih1 ⊢
        rw [if_neg (by omega), callsInFixedWindow_eq_zero _ _ (fun e he => by
          have := ih1 e he; omega)]
        omega
    · rw [callsInFixedWindow_cons]
      simp only
      by_cases hw : (windowCheck t.now st).windowStart = w
      · rw [if_pos hw, ← hw]; omega
      · rw [if_neg hw, Nat.zero_add]; exact ih3 w

/-- Every enabled invocation at non-decreasing times lies inside the fixed window it is logged
under. -/
theorem expansionRun_placement (cfg : ExpansionConfig) (hen : cfg.enableExpansion = true)
    (ticks : List ExpansionTick) : ∀ (st : ExpansionState) (table : List CandidateRow),
    (∀ t ∈ ticks, st.windowStart ≤ t.now) → (ticks.map (·.now)).Pairwise (· ≤ ·) →
      ∀ e ∈ expansionRun cfg ticks st table,
        e.windowStart ≤ e.now ∧ e.now < e.windowStart + 60000 := by
  induction ticks with
  | nil => intro st table _ _ e he; simp [expansionRun] at he
  | cons t ticks ih =>
    intro st table hws hsorted e he
    simp only [expansionRun] at he
    rw [runExpansion_eq cfg t.now t.rpc st _ hen] at he
    simp only [List.length_map] at he
    rw [List.map_cons, List.pairwise_cons] at hsorted
    have h0 := hws t (List.mem_cons_self _ _)
    rcases List.mem_cons.1 he with rfl | he
    · simp only
      rcases windowCheck_cases t.now st with ⟨h, h'⟩ | ⟨h, h'⟩ <;> rw [h]
      · exact ⟨h0, by omega⟩
      · exact ⟨le_refl _, by simp only; omega⟩
    · refine ih _ _ ?_ hsorted.2 e he
      intro t' ht'
      simp only
      have h1 := hsorted.1 t'.now (List.mem_map.2 ⟨t', ht', rfl⟩)
      rcases windowCheck_cases t.now st with ⟨h, _⟩ | ⟨h, _⟩ <;> rw [h]
      · exact hws t' (List.mem_cons_of_mem _ ht')
      · exact h1

/-- Window starts logged by a run of enabled invocations are spaced: each equals the start in
force or lies a full window later, and two different logged starts are at least 60000 ms
apart. -/
theorem expansionRun_spacing (cfg : ExpansionConfig) (hen : cfg.enableExpansion = true)
    (ticks : List ExpansionTick) : ∀ (st : ExpansionState) (table : List CandidateRow),
    (∀ e ∈ expansionRun cfg ticks st table,
      e.windowStart = st.windowStart ∨ st.windowStart + 60000 ≤ e.windowStart) ∧
    (∀ e ∈ expansionRun cfg ticks st table, ∀ e' ∈ expansionRun cfg ticks st table,
      e.windowStart < e'.windowStart → e.windowStart + 60000 ≤ e'.windowStart) := by
  induction ticks with
  | nil =>
    intro st table
    exact ⟨fun e he => by simp [expansionRun] at he, fun e he => by simp [expansionRun] at he⟩
  | cons t ticks ih =>
    intro st table
    simp only [expansionRun]
    rw [runExpansion_eq cfg t.now t.rpc st _ hen]
    simp only [List.length_map]
    generalize (attemptedCandidates cfg t.now st
      (t.enqueued.foldl insertCandidateIfAbsent table)) = att
    generalize recordAttempts t.now t.rpc
      (t.enqueued.foldl insertCandidateIfAbsent table) att = table'
    obtain ⟨ih1, ih2⟩ := ih
      { windowStart := (windowCheck t.now st).windowStart,
        count := (windowCheck t.now st).count + att.length } table'
    simp only at ih1
    have hws : (windowCheck t.now st).windowStart = st.windowStart ∨
        st.windowStart + 60000 ≤ (windowCheck t.now st).windowStart := by
      rcases windowCheck_cases t.now st with ⟨h, _⟩ | ⟨h, h'⟩ <;> rw [h]
      · exact Or.inl rfl
      · exact Or.inr h'
    constructor
    · intro e he
      rcases List.mem_cons.1 he with rfl | he
      · exact hws
      · rcases ih1 e he with h | h <;> rcases hws with h' | h' <;> omega
    · intro e he e' he' hlt
      rcases List.mem_cons.1 he with rfl | he <;> rcases List.mem_cons.1 he' with rfl | he'
      · simp only at hlt; omega
      · simp only at hlt ⊢
        rcases ih1 e' he' with h | h <;> omega
      · simp only at hlt
        rcases ih1 e he with h | h <;> omega
      · exact ih2 e he e' he' hlt

theorem sum_filter_le_fixedWindow (p : ExpansionLogEntry → Bool) (w : Nat)
    (log : List ExpansionLogEntry) (h : ∀ e ∈ log, p e = true → e.windowStart = w) :
    ((log.filter p).map (·.calls)).sum ≤ callsInFixedWindow log w := by
  induction log with
  | nil => simp [callsInFixedWindow]
  | cons e log ih =>
    have ih' := ih (fun x hx => h x (List.mem_cons_of_mem _ hx))
    rw [callsInFixedWindow_cons]
    cases hp : p e with
    | true =>
      have hw := h e (List.mem_cons_self _ _) hp
      simp only [List.filter_cons, hp, if_true, List.map_cons, List.sum_cons, hw]
      omega
    | false =>
      simp only [List.filter_cons, hp, Bool.false_eq_true, if_false]
      omega

theorem sum_filter_split (p q : ExpansionLogEntry → Bool) (log : List ExpansionLogEntry) :
    ((log.filter p).map (·.calls)).sum =
      ((log.filter fun e => p e && q e).map (·.calls)).sum +
      ((log.filter fun e => p e && !q e).map (·.calls)).sum := by
  induction log with
  | nil => rfl
  | cons e log ih =>
    cases hp : p e <;> cases hq : q e <;> simp [List.filter_cons, hp, hq, ih] <;> omega

/-- A part of the log whose entries all carry the same window start issues at most
`bound` calls when every fixed window does. -/
theorem sum_filter_le_of_common_window (p : ExpansionLogEntry → Bool) (bound : Nat)
    (log : List ExpansionLogEntry) (hbound : ∀ w, callsInFixedWindow log w ≤ bound)
    (h : ∀ e ∈ log, ∀ e' ∈ log, p e = true → p e' = true → e.windowStart = e'.windowStart) :
    ((log.filter p).map (·.calls)).sum ≤ bound := by
  by_cases hex : ∃ e0 ∈ log, p e0 = true
  · obtain ⟨e0, he0, hp0⟩ := hex
    exact le_trans
      (sum_filter_le_fixedWindow p e0.windowStart log (fun e he hp => h e he e0 he0 hp hp0))
      (hbound _)
  · have : log.filter p = [] := by
      rw [List.filter_eq_nil_iff]
      intro e he hp
      exact hex ⟨e, he, hp⟩
    simp [this]

/-- A rolling interval of one window length meets at most two fixed windows, so it holds at
most twice the per-window bound. -/
theorem callsInRollingWindow_le (log : List ExpansionLogEntry) (bound T : Nat)
    (hbound : ∀ w, callsInFixedWindow log w ≤ bound)
    (hplace : ∀ e ∈ log, e.windowStart ≤ e.now ∧ e.now < e.windowStart + 60000)
    (hspace : ∀ e ∈ log, ∀ e' ∈ log, e.windowStart < e'.windowStart →
      e.windowStart + 60000 ≤ e'.windowStart) :
    callsInRollingWindow log T ≤ 2 * bound := by
  have hsplit := sum_filter_split
    (fun e => decide (T ≤ e.now ∧ e.now < T + 60000)) (fun e => decide (e.windowStart ≤ T)) log
  unfold callsInRollingWindow
  rw [hsplit]
  have h1 := sum_filter_le_of_common_window
    (fun e => decide (T ≤ e.now ∧ e.now < T + 60000) && decide (e.windowStart ≤ T)) bound log
    hbound (by
      intro e he e' he' hp hp'
      simp only [Bool.and_eq_true, decide_eq_true_eq] at hp hp'
      have hpl := hplace e he
      have hpl' := hplace e' he'
      rcases Nat.lt_trichotomy e.windowStart e'.windowStart with hlt | heq | hgt
      · have := hspace e he e' he' hlt; omega
      · exact heq
      · have := hspace e' he' e he hgt; omega)
  have h2 := sum_filter_le_of_common_window
    (fun e => decide (T ≤ e.now ∧ e.now < T + 60000) && !decide (e.windowStart ≤ T)) bound log
    hbound (by
      intro e he e' he' hp hp'
      simp only [Bool.and_eq_true, decide_eq_true_eq, Bool.not_eq_true', decide_eq_false_iff_not]
        at hp hp'
      have hpl := hplace e he
      have hpl' := hplace e' he'
      rcases Nat.lt_trichotomy e.windowStart e'.windowStart with hlt | heq | hgt
      · have := hspace e he e' he' hlt; omega
      · exact heq
      · have := hspace e' he' e he hgt; omega)
  omega

theorem callsInRollingWindow_of_no_calls (log : List ExpansionLogEntry) (T : Nat)
    (h : ∀ e ∈ log, e.calls = 0) : callsInRollingWindow log T = 0 := by
  unfold callsInRollingWindow
  rw [List.sum_eq_zero]
  intro x hx
  obtain ⟨e, he, rfl⟩ := List.mem_map.1 hx
  exact h e (List.mem_filter.1 he).1

theorem mem_selectEligible {table : List CandidateRow} {limit : Nat} {c : CandidateRow}
    (h : c ∈ selectEligible table limit) : c ∈ table := by
  unfold selectEligible at h
  have h1 := List.mem_of_mem_take h
  have h2 := (List.perm_insertionSort candidateOrder _).mem_iff.1 h1
  exact (List.mem_filter.1 h2).1

theorem mem_attemptedCandidates {cfg : ExpansionConfig} {now : Nat} {st : ExpansionState}
    {table : List CandidateRow} {c : CandidateRow}
    (h : c ∈ attemptedCandidates cfg now st table) :
    c ∈ table ∧ backoffSkips now c = false := by
  unfold attemptedCandidates at h
  have h1 := List.mem_filter.1 (List.mem_of_mem_take h)
  exact ⟨mem_selectEligible h1.1, by simpa using h1.2⟩

theorem recordAttempt_filter_ne (table : List CandidateRow) (now : Nat)
    (status : CandidateStatus) (e k : List Char) (hne : e ≠ k) :
    (recordAttempt table now status e).filter (fun r => r.enode = k)
      = table.filter (fun r => r.enode = k) := by
  induction table with
  | nil => rfl
  | cons x xs ih =>
    unfold recordAttempt at ih ⊢
    rw [List.map_cons, List.filter_cons, List.filter_cons, ih]
    by_cases hx : x.enode = e
    · have hk : x.enode ≠ k := by rw [hx]; exact hne
      simp [hx, hk, hne]
    · simp [hx]

theorem recordAttempts_filter (now : Nat) (rpc : List Char → RpcOutcome) (k : List Char)
    (attempted : List CandidateRow) : ∀ table : List CandidateRow,
    (∀ a ∈ attempted, a.enode ≠ k) →
    (recordAttempts now rpc table attempted).filter (fun r => r.enode = k)
      = table.filter (fun r => r.enode = k) := by
  induction attempted with
  | nil => intro table _; rfl
  | cons a as ih =>
    intro table h
    unfold recordAttempts at ih ⊢
    rw [List.foldl_cons, ih _ (fun x hx => h x (List.mem_cons_of_mem _ hx)),
      recordAttempt_filter_ne _ _ _ _ _ (h a (List.mem_cons_self _ _))]

theorem filter_enode_eq_singleton (table : List CandidateRow) (c : CandidateRow)
    (hkey : (table.map (·.enode)).Nodup) (hc : c ∈ table) :
    table.filter (fun r => r.enode = c.enode) = [c] := by
  induction table with
  | nil => simp at hc
  | cons x xs ih =>
    rw [List.map_cons, List.nodup_cons] at hkey
    rcases List.mem_cons.1 hc with rfl | hc'
    · have : xs.filter (fun r => r.enode = c.enode) = [] := by
        rw [List.filter_eq_nil_iff]
        intro r hr hre
        exact hkey.1 (List.mem_map.2 ⟨r, hr, by simpa using hre⟩)
      simp [List.filter_cons, this]
    · have hx : x.enode ≠ c.enode := by
        intro e
        exact hkey.1 (List.mem_map.2 ⟨c, hc', e.symm⟩)
      simp only [List.filter_cons, hx, decide_False]
      exact ih hkey.2 hc'

theorem backoffSkips_of_active (now : Nat) (c : CandidateRow) (t : Nat)
    (ht : c.last_attempt = some t) (h0 : t ≠ 0)
    (h : (now : Int) - (t : Int) < ((c.attempts : Int) + 1) * 60000) :
    backoffSkips now c = true := by
  simp [backoffSkips, ht, h0, h]

theorem backoffSkips_of_elapsed (now : Nat) (c : CandidateRow) (t : Nat)
    (ht : c.last_attempt = some t)
    (h : (now : Int) - (t : Int) ≥ ((c.attempts : Int) + 1) * 60000) :
    backoffSkips now c = false := by
  simp only [backoffSkips, ht, Option.getD_some, Bool.and_eq_false_imp, decide_eq_false_iff_not]
  intro _; omega

/-! ## Expansion scheduler: claims C5, C6 -/

/-- C5 as stated fails: with `rateLimit = 1` and ticks 15 s apart, the scheduler issues one
call at `t₀ + 45000` (window started at `t₀`) and one at `t₀ + 60000` (fresh window), two
calls inside the rolling interval `[t₀ + 45000, t₀ + 105000)`. -/
theorem expansionRun_exceeds_rolling_budget :
    (exampleTicks.map (·.now)).Pairwise (· ≤ ·) ∧
    exampleConfig.expansionRate = 1 ∧
    callsInRollingWindow (expansionRun exampleConfig exampleTicks initialExpansionState [])
      1700000045000 = 2 := by
  decide

/-- C5, amended: in every run of `runExpansion` invocations from the initial state, whatever
the candidate tables and RPC outcomes, the invocations logged under one window start `w` (a
fixed window, opened by the invocation that reset it) issue together at most `rateLimit`
outbound-connect calls; at non-decreasing times each of these invocations lies in
`[w, w + 60000)`, and the invocations whose time lies in a rolling interval
`[T, T + 60000)` issue together at most `2 * rateLimit` calls. -/
theorem expansionRun_fixed_window_budget (cfg : ExpansionConfig) (ticks : List ExpansionTick)
    (table : List CandidateRow) :
    (∀ w, callsInFixedWindow (expansionRun cfg ticks initialExpansionState table) w
      ≤ cfg.expansionRate) ∧
    ((ticks.map (·.now)).Pairwise (· ≤ ·) →
      (cfg.enableExpansion = true →
        ∀ e ∈ expansionRun cfg ticks initialExpansionState table,
          e.windowStart ≤ e.now ∧ e.now < e.windowStart + 60000) ∧
      ∀ T, callsInRollingWindow (expansionRun cfg ticks initialExpansionState table) T
        ≤ 2 * cfg.expansionRate) := by
  have hfixed : ∀ w, callsInFixedWindow (expansionRun cfg ticks initialExpansionState table) w
      ≤ cfg.expansionRate := by
    intro w
    cases hen : cfg.enableExpansion with
    | false =>
      rw [callsInFixedWindow_of_no_calls _ _ (expansionRun_disabled cfg hen ticks _ _)]
      exact Nat.zero_le _
    | true =>
      exact (expansionRun_budget cfg hen ticks initialExpansionState table
        (Nat.zero_le _)).2.2 w
  refine ⟨hfixed, fun hsorted => ⟨fun hen => ?_, fun T => ?_⟩⟩
  · exact expansionRun_placement cfg hen ticks initialExpansionState table
      (fun t _ => Nat.zero_le _) hsorted
  · cases hen : cfg.enableExpansion with
    | false =>
      rw [callsInRollingWindow_of_no_calls _ _ (expansionRun_disabled cfg hen ticks _ _)]
      exact Nat.zero_le _
    | true =>
      exact callsInRollingWindow_le _ _ T hfixed
        (expansionRun_placement cfg hen ticks initialExpansionState table
          (fun t _ => Nat.zero_le _) hsorted)
        (expansionRun_spacing cfg hen ticks initialExpansionState table).2

/-- C5, amended, on the run of the counterexample: the fixed window opened at `t₀` holds at
most one call, the invocation at `t₀ + 45000` lies in it, and the rolling interval from
`t₀ + 45000` holds at most two calls. -/
theorem expansionRun_fixed_window_budget_witness :
    callsInFixedWindow (expansionRun exampleConfig exampleTicks initialExpansionState [])
      1700000000000 ≤ 1 ∧
    (1700000000000 ≤ 1700000045000 ∧ 1700000045000 < 1700000000000 + 60000) ∧
    callsInRollingWindow (expansionRun exampleConfig exampleTicks initialExpansionState [])
      1700000045000 ≤ 2 * 1 :=
  ⟨(expansionRun_fixed_window_budget exampleConfig exampleTicks []).1 1700000000000,
   ((expansionRun_fixed_window_budget exampleConfig exampleTicks []).2 (by decide)).1 rfl
     ⟨1700000045000, 1700000000000, 1⟩ (by decide),
   ((expansionRun_fixed_window_budget exampleConfig exampleTicks []).2 (by decide)).2
     1700000045000⟩

/-- C6 as stated fails: a candidate attempted (and failed) by an invocation at time `0` gets
`attempts = 1` and `last_attempt = 0`; the invocation at `now = 15000` attempts it again
although `now - 0 < (1 + 1) * 60000`, since the source tests `lastAttempt` by truthiness. -/
theorem runExpansion_attempts_zero_lastAttempt :
    (runExpansion exampleConfig30 0 (fun _ => RpcOutcome.falsy) initialExpansionState
      [examplePendingCandidate]).candidates
      = [{ examplePendingCandidate with
            attempts := 1, last_attempt := some 0, status := some CandidateStatus.failed }] ∧
    ((15000 : Int) - 0 < ((1 : Int) + 1) * 60000) ∧
    (runExpansion exampleConfig30 15000 (fun _ => RpcOutcome.falsy)
      (runExpansion exampleConfig30 0 (fun _ => RpcOutcome.falsy) initialExpansionState
        [examplePendingCandidate]).state
      (runExpansion exampleConfig30 0 (fun _ => RpcOutcome.falsy) initialExpansionState
        [examplePendingCandidate]).candidates).calls = [examplePendingCandidate.enode] := by
  decide

/-- C6, amended: for a candidate `c` of a table keyed by connection string, with
`attempts = k` and a set, non-zero `last_attempt = t`, a `runExpansion` invocation at `now`
with `now - t < (k + 1) * 60000` issues no outbound-connect call for `c` and leaves its row
unchanged; with `now - t ≥ (k + 1) * 60000` (any set `t`) the backoff test does not skip `c`,
and `c` is attempted whenever it is among the fetched candidates and fewer candidates than
the remaining window budget are queued before it. -/
theorem runExpansion_backoff (cfg : ExpansionConfig) (now : Nat) (rpc : List Char → RpcOutcome)
    (st : ExpansionState) (table : List CandidateRow) (c : CandidateRow) (t : Nat)
    (hkey : (table.map (·.enode)).Nodup) (hc : c ∈ table) (ht : c.last_attempt = some t) :
    (t ≠ 0 → (now : Int) - (t : Int) < ((c.attempts : Int) + 1) * 60000 →
      c.enode ∉ (runExpansion cfg now rpc st table).calls ∧
      (runExpansion cfg now rpc st table).candidates.filter (fun r => r.enode = c.enode) = [c]) ∧
    ((now : Int) - (t : Int) ≥ ((c.attempts : Int) + 1) * 60000 →
      backoffSkips now c = false ∧
      (cfg.enableExpansion = true → ∀ pre post,
        selectEligible table cfg.maxCandidates = pre ++ c :: post →
        (pre.filter fun x => !backoffSkips now x).length
          < cfg.expansionRate - (windowCheck now st).count →
        c.enode ∈ (runExpansion cfg now rpc st table).calls)) := by
  constructor
  · intro h0 hactive
    have hskip := backoffSkips_of_active now c t ht h0 hactive
    cases hen : cfg.enableExpansion with
    | false =>
      have : runExpansion cfg now rpc st table = { state := st, candidates := table, calls := [] } := by
        simp [runExpansion, hen]
      rw [this]
      exact ⟨by simp, filter_enode_eq_singleton table c hkey hc⟩
    | true =>
      rw [runExpansion_eq cfg now rpc st table hen]
      have hnot : ∀ a ∈ attemptedCandidates cfg now st table, a.enode ≠ c.enode := by
        intro a ha hae
        obtain ⟨hat, hask⟩ := mem_attemptedCandidates ha
        have : a = c := List.inj_on_of_nodup_map hkey hat hc hae
        rw [this, hskip] at hask
        exact absurd hask (by simp)
      refine ⟨?_, ?_⟩
      · simp only [List.mem_map, not_exists, not_and]
        exact fun a ha => hnot a ha
      · simp only
        rw [recordAttempts_filter now rpc c.enode _ table hnot]
        exact filter_enode_eq_singleton table c hkey hc
  · intro helapsed
    have hskip := backoffSkips_of_elapsed now c t ht helapsed
    refine ⟨hskip, fun hen pre post hsel hbudget => ?_⟩
    rw [runExpansion_eq cfg now rpc st table hen]
    simp only [List.mem_map]
    refine ⟨c, ?_, rfl⟩
    unfold attemptedCandidates
    rw [hsel, List.filter_append, List.filter_cons]
    simp only [hskip, Bool.not_false, if_true]
    rw [List.take_append_eq_append_take]
    apply List.mem_append_right
    obtain ⟨m, hm⟩ : ∃ m, cfg.expansionRate - (windowCheck now st).count
        - (pre.filter fun x => !backoffSkips now x).length = m + 1 :=
      ⟨_, (Nat.succ_pred_eq_of_pos (by omega)).symm⟩
    rw [hm, List.take_succ_cons]
    exact List.mem_cons_self _ _

/-- C6, amended, on a candidate attempted once at `t`: skipped and unchanged at `t + 60000`
(backoff is two minutes), attempted at `t + 120000`. -/
theorem runExpansion_backoff_witness :
    (exampleBackoffCandidate.enode ∉
        (runExpansion exampleConfig 1700000060000 (fun _ => RpcOutcome.truthy)
          initialExpansionState [exampleBackoffCandidate]).calls ∧
      (runExpansion exampleConfig 1700000060000 (fun _ => RpcOutcome.truthy)
          initialExpansionState [exampleBackoffCandidate]).candidates.filter
        (fun r => r.enode = exampleBackoffCandidate.enode) = [exampleBackoffCandidate]) ∧
    exampleBackoffCandidate.enode ∈
      (runExpansion exampleConfig 1700000120000 (fun _ => RpcOutcome.truthy)
        initialExpansionState [exampleBackoffCandidate]).calls :=
  ⟨(runExpansion_backoff exampleConfig 1700000060000 (fun _ => RpcOutcome.truthy)
      initialExpansionState [exampleBackoffCandidate] exampleBackoffCandidate 1700000000000
      (by decide) (by decide) rfl).1 (by decide) (by decide),
   ((runExpansion_backoff exampleConfig 1700000120000 (fun _ => RpcOutcome.truthy)
      initialExpansionState [exampleBackoffCandidate] exampleBackoffCandidate 1700000000000
      (by decide) (by decide) rfl).2 (by decide)).2 rfl [] [] (by decide) (by decide)⟩

/-! ## Lemmas on the export merge -/

theorem mem_dedupKeepFirst (l : List (List Char)) (x : List Char) :
    x ∈ dedupKeepFirst l ↔ x ∈ l := by
  induction l with
  | nil => simp [dedupKeepFirst]
  | cons y ys ih =>
    simp only [dedupKeepFirst, List.mem_cons, List.mem_filter, ih, decide_eq_true_eq]
    constructor
    · rintro (h | ⟨h, _⟩)
      · exact Or.inl h
      · exact Or.inr h
    · intro h
      by_cases hxy : x = y
      · exact Or.inl hxy
      · rcases h with h | h
        · exact Or.inl h
        · exact Or.inr ⟨h, hxy⟩

theorem dedupKeepFirst_filter (p : List Char → Bool) (l : List (List Char)) :
    (dedupKeepFirst l).filter p = dedupKeepFirst (l.filter p) := by
  induction l with
  | nil => rfl
  | cons y ys ih =>
    by_cases hp : p y = true
    · simp only [dedupKeepFirst, List.filter_cons, hp, if_true, ← ih, List.filter_filter]
      congr 1
      apply List.filter_congr
      intro x _
      exact Bool.and_comm _ _
    · have hp' : p y = false := by simpa using hp
      have hf : (y :: ys).filter p = ys.filter p := by simp [List.filter_cons, hp']
      rw [hf, ← ih]
      show (y :: (dedupKeepFirst ys).filter (· ≠ y)).filter p = _
      rw [List.filter_cons, hp', List.filter_filter]
      simp only [Bool.false_eq_true, if_false]
      apply List.filter_congr
      intro x _
      by_cases hx : p x = true
      · have : x ≠ y := by rintro rfl; exact hp hx
        simp [hx, this]
      · simp [hx]

/-- The merge loop appends to `combined`, in order and once each, the entries not yet seen. -/
theorem foldl_mergeStep (l : List (List Char)) :
    ∀ acc : List (List Char) × List (List Char), (∀ x, x ∈ acc.2 ↔ x ∈ acc.1) →
      (l.foldl mergeStep acc).1 = acc.1 ++ dedupKeepFirst (l.filter (· ∉ acc.1)) ∧
      (∀ x, x ∈ (l.foldl mergeStep acc).2 ↔ x ∈ (l.foldl mergeStep acc).1) := by
  induction l with
  | nil => intro acc h; simpa [dedupKeepFirst] using h
  | cons y ys ih =>
    intro acc h
    rw [List.foldl_cons]
    by_cases hy : y ∈ acc.1
    · have hstep : mergeStep acc y = acc := by
        simp [mergeStep, (h y).2 hy]
      rw [hstep]
      refine ⟨?_, (ih acc h).2⟩
      rw [(ih acc h).1]
      simp [List.filter_cons, hy]
    · have hstep : mergeStep acc y = (acc.1 ++ [y], y :: acc.2) := by
        have : y ∉ acc.2 := fun hm => hy ((h y).1 hm)
        simp [mergeStep, this]
      have h' : ∀ x, x ∈ (acc.1 ++ [y], y :: acc.2).2 ↔ x ∈ (acc.1 ++ [y], y :: acc.2).1 := by
        intro x
        simp only [List.mem_cons, List.mem_append, List.not_mem_nil, or_false, h x]
        exact Or.comm
      rw [hstep]
      refine ⟨?_, (ih _ h').2⟩
      rw [(ih _ h').1]
      simp only [List.filter_cons, hy, not_false_eq_true, decide_True, if_true, dedupKeepFirst,
        List.append_assoc, List.singleton_append]
      congr 2
      rw [dedupKeepFirst_filter]
      congr 1
      rw [List.filter_filter]
      apply List.filter_congr
      intro x _
      by_cases hx : x = y <;> simp [hx, hy]

/-! ## Auto-exporter: claim C7 -/

/-- C7: for every list `E` of existing file entries, every fresh list `F` and every limit `L`,
the list written by `writeAutoExports` is the first `L` elements of `E` without later
duplicates followed by the elements of `F` not in `E`, in order and without duplicates; for
distinct `A`, `B`, `C` and `L ≥ 3`, `E = [A, B]` and `F = [B, C]` give exactly `[A, B, C]`. -/
theorem writeAutoExports_eq_specifiedExport :
    (∀ (E F : List (List Char)) (L : Nat), writeAutoExports E F L = specifiedExport E F L) ∧
    (∀ (A B C : List Char) (L : Nat), A ≠ B → A ≠ C → B ≠ C → 3 ≤ L →
      writeAutoExports [A, B] [B, C] L = [A, B, C]) := by
  have hmain : ∀ (E F : List (List Char)) (L : Nat),
      writeAutoExports E F L = specifiedExport E F L := by
    intro E F L
    unfold writeAutoExports specifiedExport
    obtain ⟨h1, h2⟩ := foldl_mergeStep E ([], []) (fun x => Iff.rfl)
    obtain ⟨h3, _⟩ := foldl_mergeStep F (E.foldl mergeStep ([], [])) h2
    simp only [h3, h1, List.nil_append, List.not_mem_nil, not_false_eq_true, decide_True,
      List.filter_true, mem_dedupKeepFirst]
  refine ⟨hmain, ?_⟩
  intro A B C L hAB hAC hBC hL
  rw [hmain]
  have h3 : [A, B, C].take L = [A, B, C] := List.take_of_length_le (by simpa using hL)
  have : specifiedExport [A, B] [B, C] L = [A, B, C].take L := by
    simp [specifiedExport, dedupKeepFirst, List.filter_cons, hAB, hAC, hBC, Ne.symm hAB,
      Ne.symm hAC, Ne.symm hBC]
  rw [this, h3]

/-- C7 on the existing entries `[A, B]` and the fresh batch `[B, C]` with limit 3. -/
theorem writeAutoExports_eq_specifiedExport_witness :
    writeAutoExports ["A".toList, "B".toList] ["B".toList, "C".toList] 3
      = ["A".toList, "B".toList, "C".toList] :=
  writeAutoExports_eq_specifiedExport.2 "A".toList "B".toList "C".toList 3
    (by decide) (by decide) (by decide) (by decide)

/-! ## Lemmas on `split` and `join` -/

theorem jsSplit_ne_nil (c : Char) (s : List Char) : jsSplit c s ≠ [] := by
  induction s with
  | nil => simp [jsSplit]
  | cons x xs ih =>
    unfold jsSplit
    by_cases hx : x = c
    · simp [hx]
    · rw [if_neg hx]
      cases h : jsSplit c xs <;> simp

theorem jsSplit_cons_ne (c x : Char) (xs : List Char) (hx : x ≠ c) :
    ∃ part parts, jsSplit c xs = part :: parts ∧ jsSplit c (x :: xs) = (x :: part) :: parts := by
  cases h : jsSplit c xs with
  | nil => exact absurd h (jsSplit_ne_nil c xs)
  | cons part parts => exact ⟨part, parts, rfl, by simp [jsSplit, hx, h]⟩

theorem jsSplit_of_not_mem {c : Char} {s : List Char} (h : c ∉ s) : jsSplit c s = [s] := by
  induction s with
  | nil => rfl
  | cons x xs ih =>
    have hx : x ≠ c := fun e => h (e ▸ List.mem_cons_self _ _)
    have hxs : c ∉ xs := fun m => h (List.mem_cons_of_mem _ m)
    simp [jsSplit, hx, ih hxs]

theorem jsSplit_append_cons {c : Char} {part : List Char} (rest : List Char) (h : c ∉ part) :
    jsSplit c (part ++ c :: rest) = part :: jsSplit c rest := by
  induction part with
  | nil => simp [jsSplit]
  | cons x xs ih =>
    have hx : x ≠ c := fun e => h (e ▸ List.mem_cons_self _ _)
    have hxs : c ∉ xs := fun m => h (List.mem_cons_of_mem _ m)
    simp [jsSplit, hx, ih hxs]

theorem jsSplit_length_of_mem {c : Char} {s : List Char} (h : c ∈ s) :
    2 ≤ (jsSplit c s).length := by
  induction s with
  | nil => simp at h
  | cons x xs ih =>
    by_cases hx : x = c
    · have hne := jsSplit_ne_nil c xs
      simp only [jsSplit, hx, if_true, List.length_cons]
      have : 0 < (jsSplit c xs).length := List.length_pos.2 hne
      omega
    · obtain ⟨part, parts, h1, h2⟩ := jsSplit_cons_ne c x xs hx
      have hm : c ∈ xs := by
        rcases List.mem_cons.1 h with e | m
        · exact absurd e.symm hx
        · exact m
      have := ih hm
      rw [h1] at this
      rw [h2]; simpa using this

theorem not_mem_of_mem_jsSplit {c : Char} {s part : List Char} (h : part ∈ jsSplit c s) :
    c ∉ part := by
  induction s generalizing part with
  | nil =>
    simp only [jsSplit, List.mem_singleton] at h
    rw [h]; simp
  | cons x xs ih =>
    by_cases hx : x = c
    · simp only [jsSplit, hx, if_true, List.mem_cons] at h
      rcases h with rfl | h
      · simp
      · exact ih h
    · obtain ⟨p, ps, h1, h2⟩ := jsSplit_cons_ne c x xs hx
      rw [h2] at h
      rcases List.mem_cons.1 h with rfl | h
      · have hp : c ∉ p := ih (by rw [h1]; exact List.mem_cons_self _ _)
        intro hm
        rcases List.mem_cons.1 hm with e | m
        · exact hx e.symm
        · exact hp m
      · exact ih (by rw [h1]; exact List.mem_cons_of_mem _ h)

theorem mem_of_mem_jsSplit {c y : Char} {s part : List Char} (h : part ∈ jsSplit c s)
    (hy : y ∈ part) : y ∈ s := by
  induction s generalizing part with
  | nil =>
    simp only [jsSplit, List.mem_singleton] at h
    rw [h] at hy; exact hy
  | cons x xs ih =>
    by_cases hx : x = c
    · simp only [jsSplit, hx, if_true, List.mem_cons] at h
      rcases h with rfl | h
      · simp at hy
      · exact List.mem_cons_of_mem _ (ih h hy)
    · obtain ⟨p, ps, h1, h2⟩ := jsSplit_cons_ne c x xs hx
      rw [h2] at h
      rcases List.mem_cons.1 h with rfl | h
      · rcases List.mem_cons.1 hy with e | m
        · rw [e]; exact List.mem_cons_self _ _
        · exact List.mem_cons_of_mem _ (ih (by rw [h1]; exact List.mem_cons_self _ _) m)
      · exact List.mem_cons_of_mem _ (ih (by rw [h1]; exact List.mem_cons_of_mem _ h) hy)

theorem jsSplit_jsJoin (c : Char) (parts : List (List Char)) (hne : parts ≠ [])
    (h : ∀ part ∈ parts, c ∉ part) : jsSplit c (jsJoin c parts) = parts := by
  induction parts with
  | nil => exact absurd rfl hne
  | cons p ps ih =>
    cases ps with
    | nil => simpa [jsJoin] using jsSplit_of_not_mem (h p (List.mem_cons_self _ _))
    | cons q qs =>
      simp only [jsJoin]
      rw [jsSplit_append_cons _ (h p (List.mem_cons_self _ _)),
        ih (by simp) (fun x hx => h x (List.mem_cons_of_mem _ hx))]

theorem mem_jsJoin {c y : Char} {parts : List (List Char)} (h : y ∈ jsJoin c parts) :
    y = c ∨ ∃ part ∈ parts, y ∈ part := by
  induction parts with
  | nil => simp [jsJoin] at h
  | cons p ps ih =>
    cases ps with
    | nil => exact Or.inr ⟨p, List.mem_cons_self _ _, by simpa [jsJoin] using h⟩
    | cons q qs =>
      simp only [jsJoin, List.mem_append, List.mem_cons] at h
      rcases h with h | h | h
      · exact Or.inr ⟨p, List.mem_cons_self _ _, h⟩
      · exact Or.inl h
      · rcases ih h with e | ⟨part, hp, hy⟩
        · exact Or.inl e
        · exact Or.inr ⟨part, List.mem_cons_of_mem _ hp, hy⟩

theorem mem_jsJoin_separator (c : Char) (parts : List (List Char)) (h : 2 ≤ parts.length) :
    c ∈ jsJoin c parts := by
  match parts, h with
  | p :: q :: qs, _ => simp [jsJoin]

theorem jsJoin_append_two_empty (c : Char) (parts : List (List Char)) (hne : parts ≠ []) :
    jsJoin c (parts ++ [[], []]) = jsJoin c parts ++ [c, c] := by
  induction parts with
  | nil => exact absurd rfl hne
  | cons p ps ih =>
    cases ps with
    | nil => simp [jsJoin]
    | cons q qs =>
      have := ih (by simp)
      show p ++ c :: jsJoin c ((q :: qs) ++ [[], []]) = (p ++ c :: jsJoin c (q :: qs)) ++ [c, c]
      rw [this]; simp

/-! ## Lemmas on `maskIp` -/

theorem maskIp_dotted {ip : List Char} (h4 : (jsSplit '.' ip).length = 4) :
    maskIp ip = jsJoin '.' ((jsSplit '.' ip).set 3 redactionToken) := by
  have hmem : '.' ∈ ip := by
    by_contra hn
    rw [jsSplit_of_not_mem hn] at h4
    simp at h4
  have hne : ip ≠ [] := by rintro rfl; simp at hmem
  simp [maskIp, hne, hmem, h4]

theorem maskIp_colon {ip : List Char} (h4 : (jsSplit '.' ip).length ≠ 4) (hc : ':' ∈ ip)
    (hg : 2 ≤ (colonGroups ip).length) :
    maskIp ip = jsJoin ':' ((colonGroups ip).take 3) ++ [':', ':'] := by
  have hne : ip ≠ [] := by rintro rfl; simp at hc
  simp [maskIp, hne, h4, hc, hg]

theorem maskIp_other {ip : List Char} (h4 : (jsSplit '.' ip).length ≠ 4)
    (hc : ':' ∉ ip ∨ (colonGroups ip).length < 2) : maskIp ip = ip := by
  unfold maskIp
  by_cases hne : ip = []
  · simp [hne]
  · rw [if_neg hne, if_neg (fun h => h4 h.2), if_neg]
    rintro ⟨h1, h2⟩
    rcases hc with hc | hc
    · exact hc h1
    · omega

theorem colonGroups_masked (groups : List (List Char)) (hne : groups ≠ [])
    (hfree : ∀ g ∈ groups, ':' ∉ g) (hfull : ∀ g ∈ groups, g ≠ []) :
    colonGroups (jsJoin ':' groups ++ [':', ':']) = groups := by
  unfold colonGroups
  rw [← jsJoin_append_two_empty ':' groups hne, jsSplit_jsJoin ':' _ (by simp)]
  · rw [List.filter_append]
    have h1 : groups.filter (fun part => decide (part ≠ [])) = groups := by
      rw [List.filter_eq_self]
      intro g hg
      simpa using hfull g hg
    rw [h1]; simp
  · intro part hp
    rcases List.mem_append.1 hp with hp | hp
    · exact hfree part hp
    · simp only [List.mem_cons, List.mem_singleton, List.not_mem_nil, or_false, or_self] at hp
      rw [hp]; simp

/-- The form of idempotence that `maskIp` has: a second masking changes nothing unless the
first masking produced a host of exactly 4 dot-separated parts from one that had not. -/
theorem maskIp_maskIp_of {h : List Char}
    (hc : (jsSplit '.' h).length = 4 ∨ (jsSplit '.' (maskIp h)).length ≠ 4) :
    maskIp (maskIp h) = maskIp h := by
  by_cases h4 : (jsSplit '.' h).length = 4
  · have hparts : ∃ a b c d, jsSplit '.' h = [a, b, c, d] := by
      match hs : jsSplit '.' h, h4 with
      | [a, b, c, d], _ => exact ⟨a, b, c, d, rfl⟩
    obtain ⟨a, b, c, d, hs⟩ := hparts
    have hfree : ∀ part ∈ [a, b, c, redactionToken], '.' ∉ part := by
      intro part hp
      simp only [List.mem_cons, List.mem_singleton, List.not_mem_nil, or_false] at hp
      have hin : ∀ x, x ∈ jsSplit '.' h → '.' ∉ x := fun x hx => not_mem_of_mem_jsSplit hx
      rw [hs] at hin
      rcases hp with rfl | rfl | rfl | rfl
      · exact hin _ (by simp)
      · exact hin _ (by simp)
      · exact hin _ (by simp)
      · decide
    have hm : maskIp h = jsJoin '.' [a, b, c, redactionToken] := by
      rw [maskIp_dotted h4, hs]; rfl
    have hs2 : jsSplit '.' (jsJoin '.' [a, b, c, redactionToken]) = [a, b, c, redactionToken] :=
      jsSplit_jsJoin '.' _ (by simp) hfree
    rw [hm, maskIp_dotted (by rw [hs2]; rfl), hs2]; rfl
  · have hc' : (jsSplit '.' (maskIp h)).length ≠ 4 := by
      rcases hc with hc | hc
      · exact absurd hc h4
      · exact hc
    by_cases hcol : ':' ∈ h ∧ 2 ≤ (colonGroups h).length
    · have hm := maskIp_colon h4 hcol.1 hcol.2
      have hne : (colonGroups h).take 3 ≠ [] := by
        intro e
        have := congrArg List.length e
        simp only [List.length_take, List.length_nil] at this
        omega
      have hfree : ∀ g ∈ (colonGroups h).take 3, ':' ∉ g := by
        intro g hg
        have hg' := List.mem_of_mem_take hg
        exact not_mem_of_mem_jsSplit (List.mem_filter.1 hg').1
      have hfull : ∀ g ∈ (colonGroups h).take 3, g ≠ [] := by
        intro g hg
        have hg' := List.mem_of_mem_take hg
        simpa using (List.mem_filter.1 hg').2
      have hgroups := colonGroups_masked _ hne hfree hfull
      rw [hm] at hc' ⊢
      rw [maskIp_colon hc' (by simp), hgroups, List.take_take, Nat.min_self]
      rw [hgroups, List.length_take]
      omega
    · have hm : maskIp h = h := by
        apply maskIp_other h4
        by_cases h1 : ':' ∈ h
        · exact Or.inr (Nat.lt_of_not_ge (fun h2 => hcol ⟨h1, h2⟩))
        · exact Or.inl h1
      rw [hm, hm]

theorem not_mem_maskIp_of_not_mem {h : List Char} (hd : '.' ∉ h) : '.' ∉ maskIp h := by
  have h4 : (jsSplit '.' h).length ≠ 4 := by rw [jsSplit_of_not_mem hd]; simp
  by_cases hcol : ':' ∈ h ∧ 2 ≤ (colonGroups h).length
  · rw [maskIp_colon h4 hcol.1 hcol.2]
    intro hm
    rcases List.mem_append.1 hm with hm | hm
    · rcases mem_jsJoin hm with e | ⟨part, hp, hy⟩
      · exact absurd e (by decide)
      · have hp' := List.mem_of_mem_take hp
        exact hd (mem_of_mem_jsSplit (List.mem_filter.1 hp').1 hy)
    · simp at hm
  · rw [maskIp_other h4]
    · exact hd
    · by_cases h1 : ':' ∈ h
      · exact Or.inr (Nat.lt_of_not_ge (fun h2 => hcol ⟨h1, h2⟩))
      · exact Or.inl h1

/-! ## Privacy masking: claims C12, C13 -/

/-- C12 as stated fails: the host `1.2.3.4:a:b:c.d` is masked by the colon rule to
`1.2.3.4:a:b::`, which has exactly 4 dot-separated parts and is masked again to
`1.2.3.xxx`. -/
theorem maskIp_not_idempotent :
    maskIp "1.2.3.4:a:b:c.d".toList = "1.2.3.4:a:b::".toList ∧
    maskIp (maskIp "1.2.3.4:a:b:c.d".toList) = "1.2.3.xxx".toList ∧
    maskIp (maskIp "1.2.3.4:a:b:c.d".toList) ≠ maskIp "1.2.3.4:a:b:c.d".toList := by
  decide

/-- C12, amended: `maskIp (maskIp h) = maskIp h` for every host `h` that splits on `.` into
exactly 4 parts or whose masked form does not; in particular for every host without `.`
and for every host without `:`. -/
theorem maskIp_idempotent (h : List Char) :
    (((jsSplit '.' h).length = 4 ∨ (jsSplit '.' (maskIp h)).length ≠ 4) →
      maskIp (maskIp h) = maskIp h) ∧
    ('.' ∉ h → maskIp (maskIp h) = maskIp h) ∧
    (':' ∉ h → maskIp (maskIp h) = maskIp h) := by
  refine ⟨maskIp_maskIp_of, fun hd => ?_, fun hc => ?_⟩
  · apply maskIp_maskIp_of
    right
    rw [jsSplit_of_not_mem (not_mem_maskIp_of_not_mem hd)]
    simp
  · by_cases h4 : (jsSplit '.' h).length = 4
    · exact maskIp_maskIp_of (Or.inl h4)
    · have hm : maskIp h = h := maskIp_other h4 (Or.inl hc)
      rw [hm, hm]

/-- C12, amended, on `203.0.113.7` and on `2001:db8:1:2::1`. -/
theorem maskIp_idempotent_witness :
    maskIp (maskIp "203.0.113.7".toList) = maskIp "203.0.113.7".toList ∧
    maskIp (maskIp "2001:db8:1:2::1".toList) = maskIp "2001:db8:1:2::1".toList :=
  ⟨(maskIp_idempotent "203.0.113.7".toList).1 (Or.inl (by decide)),
   (maskIp_idempotent "2001:db8:1:2::1".toList).2.1 (by decide)⟩

/-- C13 as stated fails: the hosts `::1` and `a:` contain `:` but have fewer than two
non-empty colon-separated groups, and `maskIp` returns them unchanged, where the stated rule
gives `::1::` and `a:::`. -/
theorem maskIp_keeps_short_colon_hosts :
    maskIp "::1".toList = "::1".toList ∧ maskIpSpecified "::1".toList = "::1::".toList ∧
    maskIp "a:".toList = "a:".toList ∧ maskIpSpecified "a:".toList = "a:::".toList := by
  decide

/-- C13, amended: a host of exactly 4 dot-separated parts `a.b.c.d` is masked to `a.b.c.xxx`;
otherwise a host that contains `:` and has at least two non-empty colon-separated groups is
masked to its first 3 non-empty groups joined by `:` and followed by `::`; every other host
is returned unchanged. -/
theorem maskIp_cases (h : List Char) :
    (∀ a b c d : List Char, '.' ∉ a → '.' ∉ b → '.' ∉ c → '.' ∉ d →
      h = jsJoin '.' [a, b, c, d] → maskIp h = jsJoin '.' [a, b, c, redactionToken]) ∧
    ((jsSplit '.' h).length ≠ 4 → ':' ∈ h → 2 ≤ (colonGroups h).length →
      maskIp h = jsJoin ':' ((colonGroups h).take 3) ++ [':', ':']) ∧
    ((jsSplit '.' h).length ≠ 4 → (':' ∉ h ∨ (colonGroups h).length < 2) → maskIp h = h) := by
  refine ⟨?_, maskIp_colon, maskIp_other⟩
  intro a b c d ha hb hc hd hh
  have hs : jsSplit '.' h = [a, b, c, d] := by
    rw [hh]
    apply jsSplit_jsJoin '.' _ (by simp)
    intro part hp
    simp only [List.mem_cons, List.mem_singleton, List.not_mem_nil, or_false] at hp
    rcases hp with rfl | rfl | rfl | rfl <;> assumption
  rw [maskIp_dotted (by rw [hs]; rfl), hs]; rfl

/-- C13, amended, on `203.0.113.7`, `2001:db8:1:2::1` and `::1`. -/
theorem maskIp_cases_witness :
    maskIp "203.0.113.7".toList = "203.0.113.xxx".toList ∧
    maskIp "2001:db8:1:2::1".toList = "2001:db8:1::".toList ∧
    maskIp "::1".toList = "::1".toList :=
  ⟨(maskIp_cases "203.0.113.7".toList).1 "203".toList "0".toList "113".toList "7".toList
      (by decide) (by decide) (by decide) (by decide) (by decide),
   (maskIp_cases "2001:db8:1:2::1".toList).2.1 (by decide) (by decide) (by decide),
   (maskIp_cases "::1".toList).2.2 (by decide) (Or.inr (by decide))⟩

/-! ## Lemmas on `maskEnode` -/

theorem jsNumberToString_ofNat (p : Nat) (hp : p ≤ 9007199254740992) :
    jsNumberToString (JSNumber.ofNat p) = some (Nat.toDigits 10 p) := by
  simp [jsNumberToString, JSNumber.ofNat, hp]

theorem maskEnode_of_parse {enode : List Char} {parsed : ParsedEnode} {port : List Char}
    (hparse : parseEnode enode = some parsed)
    (hport : jsNumberToString parsed.tcpPort = some port) :
    maskEnode enode = some (enodeScheme ++ parsed.nodeId ++ '@' ::
      (if ':' ∈ parsed.ip then '[' :: maskIp parsed.ip ++ ']' :: ':' :: port
        else maskIp parsed.ip ++ ':' :: port) ++ parsed.query) := by
  simp [maskEnode, hparse, hport]

theorem exactBound_lt_overflowBound : 9007199254740992 < doubleOverflowBound := by
  unfold doubleOverflowBound; norm_num

/-! ## Privacy masking: claim C11 -/

/-- C11 as stated fails: `maskEnode` renders the port from its numeric value and brackets the
host exactly when it contains `:`, so the port segment `030303` becomes `30303`, the brackets
of `[203.0.113.7]` are dropped and the bare host `2001:db8:1:2::1` gets brackets. -/
theorem maskEnode_rewrites_port_and_brackets :
    (parseEnode "enode://abc@203.0.113.7:030303".toList).map (·.ip) = some "203.0.113.7".toList ∧
    maskEnode "enode://abc@203.0.113.7:030303".toList
      = some "enode://abc@203.0.113.xxx:30303".toList ∧
    (parseEnode "enode://abc@[203.0.113.7]:30303".toList).map (·.ip)
      = some "203.0.113.7".toList ∧
    maskEnode "enode://abc@[203.0.113.7]:30303".toList
      = some "enode://abc@203.0.113.xxx:30303".toList ∧
    (parseEnode "enode://abc@2001:db8:1:2::1:30303".toList).map (·.ip)
      = some "2001:db8:1:2::1".toList ∧
    maskEnode "enode://abc@2001:db8:1:2::1:30303".toList
      = some "enode://abc@[2001:db8:1::]:30303".toList := by
  decide

/-- C11, amended: for a connection string with non-empty identity `id` without `@`, a query
`q` that is empty or starts with `?`, and a port written as the canonical decimal text of a
natural number `p ≤ 2^53`, `maskEnode` returns the string with only the host text replaced by
its `maskIp` form, both for a bare host `h` (non-empty, without `?` and `:`, not starting with
`[`) and for a bracketed host `[h6]` (`h6` without `]` and `?`, containing `:`); scheme,
identity, port segment and query are kept character for character. -/
theorem maskEnode_replaces_host (id h h6 q : List Char) (p : Nat)
    (hid : id ≠ []) (hat : '@' ∉ id)
    (hh : h ≠ []) (hhq : '?' ∉ h) (hhc : ':' ∉ h) (hhb : h.head? ≠ some '[')
    (hh6q : '?' ∉ h6) (hh6b : ']' ∉ h6) (hh6c : ':' ∈ h6) (hq : IsQuery q)
    (hp : p ≤ 9007199254740992) :
    maskEnode (enodeText id (h ++ ':' :: Nat.toDigits 10 p) q)
      = some (enodeText id (maskIp h ++ ':' :: Nat.toDigits 10 p) q) ∧
    maskEnode (enodeText id ('[' :: h6 ++ ']' :: ':' :: Nat.toDigits 10 p) q)
      = some (enodeText id ('[' :: maskIp h6 ++ ']' :: ':' :: Nat.toDigits 10 p) q) := by
  obtain ⟨hne, hall, hval⟩ := toDigits_decimal p
  have hlt : p < doubleOverflowBound := lt_of_le_of_lt hp exactBound_lt_overflowBound
  have hh6 : h6 ≠ [] := by rintro rfl; simp at hh6c
  have h1 := parseEnode_bare_decimal id h _ q hid hat hh hhq hhb hq hne hall
  have h2 := parseEnode_bracketed_decimal id h6 _ q hid hat hh6 hh6q hh6b hq hne hall
  rw [hval, if_pos hlt] at h1 h2
  constructor
  · rw [maskEnode_of_parse h1 (jsNumberToString_ofNat p hp)]
    simp [hhc, enodeText]
  · rw [maskEnode_of_parse h2 (jsNumberToString_ofNat p hp)]
    simp [hh6c, enodeText]

/-- C11, amended, on `enode://abc@203.0.113.7:30303` and on a bracketed IPv6 host. -/
theorem maskEnode_replaces_host_witness :
    maskEnode "enode://abc@203.0.113.7:30303".toList
      = some "enode://abc@203.0.113.xxx:30303".toList ∧
    maskEnode "enode://abc@[2001:db8:1:2::1]:30303".toList
      = some "enode://abc@[2001:db8:1::]:30303".toList :=
  maskEnode_replaces_host "abc".toList "203.0.113.7".toList "2001:db8:1:2::1".toList [] 30303
    (by decide) (by decide) (by decide) (by decide) (by decide) (by decide) (by decide)
    (by decide) (by decide) (Or.inl rfl) (by decide)

/-! ## Lemmas on the candidate insertion -/

theorem insertCandidateIfAbsent_eq (candidates : List CandidateRow) (item : NodeRow) :
    insertCandidateIfAbsent candidates item =
      if item.enode ∈ candidates.map (·.enode) then candidates
      else candidates ++ [newCandidate item] := by
  unfold insertCandidateIfAbsent newCandidate
  by_cases h : item.enode ∈ candidates.map (·.enode)
  · have hany : candidates.any (fun c => decide (c.enode = item.enode)) = true := by
      obtain ⟨c, hc, hce⟩ := List.mem_map.1 h
      exact List.any_eq_true.2 ⟨c, hc, by simpa using hce⟩
    rw [if_pos hany, if_pos h]
  · have hany : ¬ candidates.any (fun c => decide (c.enode = item.enode)) = true := by
      intro hany
      obtain ⟨c, hc, hce⟩ := List.any_eq_true.1 hany
      exact h (List.mem_map.2 ⟨c, hc, by simpa using hce⟩)
    rw [if_neg hany, if_neg h]

/-- The candidate table after the insert loop over items with distinct connection strings:
the old table, followed by a new row for each item whose connection string was absent. -/
theorem foldl_insertCandidateIfAbsent (items : List NodeRow) :
    ∀ table : List CandidateRow, (items.map (·.enode)).Nodup →
      items.foldl insertCandidateIfAbsent table =
        table ++ (items.filter fun it => it.enode ∉ table.map (·.enode)).map newCandidate := by
  induction items with
  | nil => intro table _; simp
  | cons it rest ih =>
    intro table hnd
    rw [List.map_cons, List.nodup_cons] at hnd
    rw [List.foldl_cons, ih _ hnd.2, insertCandidateIfAbsent_eq]
    by_cases h : it.enode ∈ table.map (·.enode)
    · rw [if_pos h, List.filter_cons_of_neg (by rw [decide_eq_true_eq]; exact not_not.2 h)]
    · rw [if_neg h]
      have hfilter : (rest.filter fun x =>
            decide (x.enode ∉ (table ++ [newCandidate it]).map (·.enode)))
          = rest.filter fun x => decide (x.enode ∉ table.map (·.enode)) := by
        apply List.filter_congr
        intro x hx
        have hne : x.enode ≠ it.enode := by
          intro e
          exact hnd.1 (List.mem_map.2 ⟨x, hx, e⟩)
        simp [newCandidate, hne]
      rw [hfilter, List.filter_cons_of_pos (by rw [decide_eq_true_eq]; exact h), List.map_cons,
        List.append_assoc, List.singleton_append]

/-- Every item of the `unique` map was built by `mkItem` from a parsed peer, so a property of
all such items holds of every item of the map. -/
theorem uniqueStep_foldl_invariant (env : Collaborators) (now : Nat) (P : NodeRow → Prop)
    (hP : ∀ peer parsed, parseEnode peer.enode = some parsed → P (mkItem env now peer parsed))
    (peers : List RawPeer) :
    ∀ acc : List NodeRow, (∀ it ∈ acc, P it) →
      ∀ it ∈ peers.foldl (uniqueStep env now) acc, P it := by
  induction peers with
  | nil => intro acc h; simpa using h
  | cons peer peers ih =>
    intro acc h
    rw [List.foldl_cons]
    apply ih
    intro it hit
    unfold uniqueStep at hit
    cases hp : parseEnode peer.enode with
    | none => rw [hp] at hit; exact h it hit
    | some parsed =>
      rw [hp] at hit
      simp only at hit
      split at hit
      · exact h it hit
      · rcases List.mem_append.1 hit with hit | hit
        · exact h it hit
        · rw [List.mem_singleton.1 hit]
          exact hP peer parsed hp

theorem collectUnique_parse (env : Collaborators) (now : Nat) (peers : List RawPeer) :
    ∀ it ∈ collectUnique env now peers,
      (parseEnode it.enode).map (·.nodeId) = some it.node_id :=
  uniqueStep_foldl_invariant env now
    (fun it => (parseEnode it.enode).map (·.nodeId) = some it.node_id)
    (fun peer parsed hp => by simp [mkItem, hp]) peers [] (by simp)

theorem collectUnique_first_seen (env : Collaborators) (now : Nat) (peers : List RawPeer) :
    ∀ it ∈ collectUnique env now peers, it.first_seen = now :=
  uniqueStep_foldl_invariant env now (fun it => it.first_seen = now) (fun _ _ _ => rfl) peers []
    (by simp)

/-- The items of the `unique` map carry distinct connection strings. -/
theorem collectUnique_enode_nodup (env : Collaborators) (now : Nat) (peers : List RawPeer) :
    ((collectUnique env now peers).map (·.enode)).Nodup := by
  have hid := collectUnique_nodup env now peers
  have hparse := collectUnique_parse env now peers
  apply List.Nodup.map_on _ (List.Nodup.of_map _ hid)
  intro x hx y hy hxy
  have h1 := hparse x hx
  have h2 := hparse y hy
  rw [hxy, h2] at h1
  exact List.inj_on_of_nodup_map hid hx hy (Option.some.inj h1).symm

/-! ## Candidate store: claim C14 -/

/-- C14: after `upsertPeers` with expansion enabled, the candidate table is the old table,
every row unchanged, followed by one new row for each ingested sighting (each item of the
deduplicated map `unique`) whose connection string was not yet present; the connection
strings of the table are then exactly the old ones and those of the ingested sightings, and
every row that was not there before has `attempts = 0`, no `last_attempt` and status
`pending`. -/
theorem upsertPeers_candidates (env : Collaborators) (now : Nat) (peers : List RawPeer)
    (db : Database) :
    (upsertPeers env true now peers db).candidates =
      db.candidates ++
        ((collectUnique env now peers).filter fun it =>
          it.enode ∉ db.candidates.map (·.enode)).map newCandidate ∧
    (∀ e, e ∈ (upsertPeers env true now peers db).candidates.map (·.enode) ↔
      e ∈ db.candidates.map (·.enode) ∨ e ∈ (collectUnique env now peers).map (·.enode)) ∧
    (∀ c ∈ (upsertPeers env true now peers db).candidates, c ∈ db.candidates ∨
      (c.enode ∉ db.candidates.map (·.enode) ∧ c.attempts = 0 ∧ c.last_attempt = none ∧
        c.status = some CandidateStatus.pending ∧ c.first_seen = now)) := by
  have hmain : (upsertPeers env true now peers db).candidates =
      db.candidates ++
        ((collectUnique env now peers).filter fun it =>
          it.enode ∉ db.candidates.map (·.enode)).map newCandidate := by
    unfold upsertPeers
    by_cases hp : peers = []
    · subst hp; simp [collectUnique]
    · rw [if_neg hp]
      by_cases hu : collectUnique env now peers = []
      · rw [if_pos hu, hu]; simp
      · rw [if_neg hu]
        simp only [if_true]
        exact foldl_insertCandidateIfAbsent _ _ (collectUnique_enode_nodup env now peers)
  have hseen := collectUnique_first_seen env now peers
  refine ⟨hmain, fun e => ?_, fun c hc => ?_⟩
  · rw [hmain]
    simp only [List.map_append, List.mem_append, List.mem_map, List.mem_filter,
      decide_eq_true_eq]
    constructor
    · rintro (h | ⟨c, ⟨it, ⟨hit, _⟩, rfl⟩, rfl⟩)
      · exact Or.inl h
      · exact Or.inr ⟨it, hit, rfl⟩
    · rintro (h | ⟨it, hit, rfl⟩)
      · exact Or.inl h
      · by_cases hin : ∃ a ∈ db.candidates, a.enode = it.enode
        · exact Or.inl hin
        · exact Or.inr ⟨newCandidate it, ⟨it, ⟨hit, by simpa using hin⟩, rfl⟩, rfl⟩
  · rw [hmain] at hc
    rcases List.mem_append.1 hc with hc | hc
    · exact Or.inl hc
    · obtain ⟨it, hit, rfl⟩ := List.mem_map.1 hc
      obtain ⟨hit1, hit2⟩ := List.mem_filter.1 hit
      exact Or.inr ⟨by simpa [newCandidate] using hit2, rfl, rfl, rfl, hseen it hit1⟩

/-- C14 on re-ingestion: a candidate already attempted once keeps its row when its connection
string is ingested again, and a fresh table gets one pending row for the batch. -/
theorem upsertPeers_candidates_witness :
    (upsertPeers exampleEnv true 1700000200000 exampleBatch
      ⟨[], [exampleBackoffCandidate]⟩).candidates = [exampleBackoffCandidate] ∧
    (upsertPeers exampleEnv true 1000 exampleBatch ⟨[], []⟩).candidates
      = [{ enode := "enode://abc@10.0.0.5:30303".toList, node_id := "abc".toList,
           ip := "10.0.0.5".toList, tcp_port := JSNumber.ofNat 30303, first_seen := 1000,
           attempts := 0, last_attempt := none, status := some CandidateStatus.pending }] :=
  ⟨(upsertPeers_candidates exampleEnv 1700000200000 exampleBatch
      ⟨[], [exampleBackoffCandidate]⟩).1,
   (upsertPeers_candidates exampleEnv 1000 exampleBatch ⟨[], []⟩).1⟩

/-! ## Lemmas on recorded attempts -/

theorem selectEligible_enode_nodup {table : List CandidateRow} (limit : Nat)
    (hkey : (table.map (·.enode)).Nodup) :
    ((selectEligible table limit).map (·.enode)).Nodup := by
  unfold selectEligible
  have h1 : ((table.filter eligibleStatus).map (·.enode)).Nodup :=
    hkey.sublist (List.Sublist.map _ (List.filter_sublist _))
  have h2 : (((table.filter eligibleStatus).insertionSort candidateOrder).map (·.enode)).Nodup :=
    ((List.perm_insertionSort candidateOrder _).map _).nodup_iff.2 h1
  exact h2.sublist (List.Sublist.map _ (List.take_sublist _ _))

theorem attemptedCandidates_enode_nodup {table : List CandidateRow} (cfg : ExpansionConfig)
    (now : Nat) (st : ExpansionState) (hkey : (table.map (·.enode)).Nodup) :
    ((attemptedCandidates cfg now st table).map (·.enode)).Nodup := by
  unfold attemptedCandidates
  exact (selectEligible_enode_nodup cfg.maxCandidates hkey).sublist
    (List.Sublist.map _ ((List.take_sublist _ _).trans (List.filter_sublist _)))

theorem recordAttempt_filter_eq (table : List CandidateRow) (now : Nat)
    (status : CandidateStatus) (k : List Char) :
    (recordAttempt table now status k).filter (fun r => r.enode = k)
      = (table.filter (fun r => r.enode = k)).map fun c =>
          { c with attempts := c.attempts + 1, last_attempt := some now,
                   status := some status } := by
  induction table with
  | nil => rfl
  | cons x xs ih =>
    unfold recordAttempt at ih ⊢
    rw [List.map_cons]
    by_cases hx : x.enode = k
    · rw [if_pos hx, List.filter_cons_of_pos (by simpa using hx),
        List.filter_cons_of_pos (by simpa using hx), List.map_cons, ih]
    · rw [if_neg hx, List.filter_cons_of_neg (by simpa using hx),
        List.filter_cons_of_neg (by simpa using hx), ih]

theorem recordAttempts_append (now : Nat) (rpc : List Char → RpcOutcome)
    (table : List CandidateRow) (xs ys : List CandidateRow) :
    recordAttempts now rpc table (xs ++ ys)
      = recordAttempts now rpc (recordAttempts now rpc table xs) ys := by
  simp [recordAttempts, List.foldl_append]

/-- The row of an attempted candidate after the invocation, in a table keyed by connection
string. -/
theorem recordAttempts_filter_attempted (now : Nat) (rpc : List Char → RpcOutcome)
    (table attempted : List CandidateRow) (c : CandidateRow)
    (hkey : (table.map (·.enode)).Nodup) (hc : c ∈ table)
    (hnd : (attempted.map (·.enode)).Nodup) (hca : c ∈ attempted) :
    (recordAttempts now rpc table attempted).filter (fun r => r.enode = c.enode)
      = [{ c with attempts := c.attempts + 1, last_attempt := some now,
                  status := some (attemptStatus (rpc c.enode)) }] := by
  obtain ⟨pre, post, rfl⟩ := List.append_of_mem hca
  rw [List.map_append, List.map_cons, List.nodup_append] at hnd
  obtain ⟨_, hpost, hdisj⟩ := hnd
  rw [List.nodup_cons] at hpost
  have hpre : ∀ a ∈ pre, a.enode ≠ c.enode := by
    intro a ha e
    exact hdisj (List.mem_map.2 ⟨a, ha, rfl⟩) (by rw [e]; exact List.mem_cons_self _ _)
  have hpost' : ∀ a ∈ post, a.enode ≠ c.enode := by
    intro a ha e
    exact hpost.1 (List.mem_map.2 ⟨a, ha, e⟩)
  rw [recordAttempts_append]
  have hstep : recordAttempts now rpc (recordAttempts now rpc table pre) (c :: post)
      = recordAttempts now rpc
          (recordAttempt (recordAttempts now rpc table pre) now (attemptStatus (rpc c.enode))
            c.enode) post := rfl
  rw [hstep, recordAttempts_filter now rpc c.enode post _ hpost', recordAttempt_filter_eq,
    recordAttempts_filter now rpc c.enode pre _ hpre, filter_enode_eq_singleton table c hkey hc]
  rfl

theorem runExpansion_disabled (cfg : ExpansionConfig) (now : Nat)
    (rpc : List Char → RpcOutcome) (st : ExpansionState) (table : List CandidateRow)
    (hen : cfg.enableExpansion = false) :
    runExpansion cfg now rpc st table = { state := st, candidates := table, calls := [] } := by
  simp [runExpansion, hen]

/-- The calls and the rate-window state of an invocation do not depend on the outcomes of the
calls. -/
theorem runExpansion_calls_independent (cfg : ExpansionConfig) (now : Nat)
    (rpc rpc' : List Char → RpcOutcome) (st : ExpansionState) (table : List CandidateRow) :
    (runExpansion cfg now rpc' st table).calls = (runExpansion cfg now rpc st table).calls ∧
    (runExpansion cfg now rpc' st table).state = (runExpansion cfg now rpc st table).state := by
  cases hen : cfg.enableExpansion with
  | false => simp [runExpansion_disabled _ _ _ _ _ hen]
  | true => simp [runExpansion_eq _ _ _ _ _ hen]

theorem expansionRunState_count_le (cfg : ExpansionConfig) (ticks : List ExpansionTick) :
    ∀ (st : ExpansionState) (table : List CandidateRow), st.count ≤ cfg.expansionRate →
      (expansionRunState cfg ticks st table).count ≤ cfg.expansionRate := by
  induction ticks with
  | nil => intro st table h; exact h
  | cons t ticks ih =>
    intro st table h
    unfold expansionRunState
    apply ih
    cases hen : cfg.enableExpansion with
    | false => rw [runExpansion_disabled _ _ _ _ _ hen]; exact h
    | true =>
      rw [runExpansion_eq _ _ _ _ _ hen]
      have hk := attemptedCandidates_length_le cfg t.now st
        (t.enqueued.foldl insertCandidateIfAbsent table)
      have h1 : (windowCheck t.now st).count ≤ cfg.expansionRate := by
        rcases windowCheck_cases t.now st with ⟨e, _⟩ | ⟨e, _⟩ <;> rw [e]
        · exact h
        · exact Nat.zero_le _
      simp only
      omega

theorem writeAutoExports_closed_form (E F : List (List Char)) (L : Nat) :
    writeAutoExports E F L
      = (dedupKeepFirst E ++ dedupKeepFirst (F.filter (· ∉ E))).take L := by
  unfold writeAutoExports
  obtain ⟨h1, h2⟩ := foldl_mergeStep E ([], []) (fun x => Iff.rfl)
  obtain ⟨h3, _⟩ := foldl_mergeStep F (E.foldl mergeStep ([], [])) h2
  simp only [h3, h1, List.nil_append, List.not_mem_nil, not_false_eq_true, decide_True,
    List.filter_true, mem_dedupKeepFirst]

/-! ## Expansion scheduler: claims C15, C17, C18 -/

/-- C15: for every candidate `c` of a table keyed by connection string for which a
`runExpansion` invocation at `now` issues an outbound-connect call, whatever the outcome, the
row of `c` has afterwards `attempts` increased by exactly 1 and `last_attempt = now`; its
status is `added` if and only if the call returned a truthy result and `failed` when it
returned a falsy result or raised an error; and the calls issued and the rate-window state do
not depend on the outcomes, so an error on one candidate does not abort the invocation. -/
theorem runExpansion_records_attempt (cfg : ExpansionConfig) (now : Nat)
    (rpc : List Char → RpcOutcome) (st : ExpansionState) (table : List CandidateRow)
    (c : CandidateRow) (hkey : (table.map (·.enode)).Nodup) (hc : c ∈ table)
    (hcall : c.enode ∈ (runExpansion cfg now rpc st table).calls) :
    (runExpansion cfg now rpc st table).candidates.filter (fun r => r.enode = c.enode)
      = [{ c with attempts := c.attempts + 1, last_attempt := some now,
                  status := some (attemptStatus (rpc c.enode)) }] ∧
    (attemptStatus (rpc c.enode) = CandidateStatus.added ↔ rpc c.enode = RpcOutcome.truthy) ∧
    ((rpc c.enode = RpcOutcome.falsy ∨ rpc c.enode = RpcOutcome.error) →
      attemptStatus (rpc c.enode) = CandidateStatus.failed) ∧
    (∀ rpc' : List Char → RpcOutcome,
      (runExpansion cfg now rpc' st table).calls = (runExpansion cfg now rpc st table).calls ∧
      (runExpansion cfg now rpc' st table).state = (runExpansion cfg now rpc st table).state) := by
  refine ⟨?_, ?_, ?_, fun rpc' => runExpansion_calls_independent cfg now rpc rpc' st table⟩
  · cases hen : cfg.enableExpansion with
    | false =>
      rw [runExpansion_disabled _ _ _ _ _ hen] at hcall
      simp at hcall
    | true =>
      rw [runExpansion_eq _ _ _ _ _ hen] at hcall ⊢
      simp only at hcall ⊢
      obtain ⟨a, ha, hae⟩ := List.mem_map.1 hcall
      have hat := (mem_attemptedCandidates ha).1
      have hac : a = c := List.inj_on_of_nodup_map hkey hat hc hae
      rw [hac] at ha
      exact recordAttempts_filter_attempted now rpc table _ c hkey hc
        (attemptedCandidates_enode_nodup cfg now st hkey) ha
  · cases rpc c.enode <;> simp [attemptStatus]
  · rintro (h | h) <;> rw [h] <;> rfl

/-- C15 on the candidate attempted once before: the invocation at `t + 120000` attempts it,
the call raises an error, and the row has `attempts = 2`, `last_attempt = t + 120000` and
status `failed`. -/
theorem runExpansion_records_attempt_witness :
    (runExpansion exampleConfig 1700000120000 (fun _ => RpcOutcome.error)
        initialExpansionState [exampleBackoffCandidate]).candidates.filter
      (fun r => r.enode = exampleBackoffCandidate.enode)
      = [{ exampleBackoffCandidate with
            attempts := 2, last_attempt := some 1700000120000,
            status := some CandidateStatus.failed }] :=
  (runExpansion_records_attempt exampleConfig 1700000120000 (fun _ => RpcOutcome.error)
    initialExpansionState [exampleBackoffCandidate] exampleBackoffCandidate
    (by decide) (by decide) (by decide)).1

/-- C17: for an enabled scheduler with rate limit `expansionRate`, an invocation leaves the
window count equal to the count after the window check plus the number of calls it issued;
it issues at most `expansionRate - count` calls (count taken after the window check) and none
when that difference is `≤ 0`; the count stays within the rate limit when it was within it,
and is within it after every run of invocations from the initial state; the window check
resets the count to 0 only when `now - windowStart ≥ 60000`. -/
theorem runExpansion_window_accounting (cfg : ExpansionConfig) (now : Nat)
    (rpc : List Char → RpcOutcome) (st : ExpansionState) (table : List CandidateRow)
    (hen : cfg.enableExpansion = true) :
    (runExpansion cfg now rpc st table).state.count
      = (windowCheck now st).count + (runExpansion cfg now rpc st table).calls.length ∧
    (runExpansion cfg now rpc st table).calls.length
      ≤ cfg.expansionRate - (windowCheck now st).count ∧
    ((cfg.expansionRate : Int) - ((windowCheck now st).count : Int) ≤ 0 →
      (runExpansion cfg now rpc st table).calls = []) ∧
    (st.count ≤ cfg.expansionRate →
      (runExpansion cfg now rpc st table).state.count ≤ cfg.expansionRate) ∧
    (∀ ticks, (expansionRunState cfg ticks initialExpansionState table).count
      ≤ cfg.expansionRate) ∧
    ((windowCheck now st).count = st.count ∨
      ((windowCheck now st).count = 0 ∧ (now : Int) - (st.windowStart : Int) ≥ 60000)) ∧
    ((now : Int) - (st.windowStart : Int) < 60000 → (windowCheck now st).count = st.count) := by
  have hk := attemptedCandidates_length_le cfg now st table
  rw [runExpansion_eq _ _ _ _ _ hen]
  simp only [List.length_map]
  refine ⟨trivial, hk, ?_, ?_, ?_, ?_, ?_⟩
  · intro h
    have h0 : (attemptedCandidates cfg now st table).length = 0 := by omega
    rw [List.length_eq_zero.1 h0]; rfl
  · intro h
    have h1 : (windowCheck now st).count ≤ cfg.expansionRate := by
      rcases windowCheck_cases now st with ⟨e, _⟩ | ⟨e, _⟩ <;> rw [e]
      · exact h
      · exact Nat.zero_le _
    omega
  · intro ticks
    exact expansionRunState_count_le cfg ticks initialExpansionState table (Nat.zero_le _)
  · rcases windowCheck_cases now st with ⟨e, _⟩ | ⟨e, h⟩ <;> rw [e]
    · exact Or.inl rfl
    · exact Or.inr ⟨rfl, by omega⟩
  · intro h
    rcases windowCheck_cases now st with ⟨e, _⟩ | ⟨e, h'⟩ <;> rw [e]
    simp only; omega

/-- C17 on an invocation with rate limit 1 that skips one candidate and attempts the next: one
call, count 1. -/
theorem runExpansion_window_accounting_witness :
    (runExpansion exampleConfig 1700000180000 (fun _ => RpcOutcome.falsy)
        initialExpansionState exampleBackoffTable).state.count
      = 0 + 1 ∧
    (runExpansion exampleConfig 1700000180000 (fun _ => RpcOutcome.falsy)
        initialExpansionState exampleBackoffTable).calls.length ≤ 1 - 0 :=
  ⟨(runExpansion_window_accounting exampleConfig 1700000180000 (fun _ => RpcOutcome.falsy)
      initialExpansionState exampleBackoffTable rfl).1,
   (runExpansion_window_accounting exampleConfig 1700000180000 (fun _ => RpcOutcome.falsy)
      initialExpansionState exampleBackoffTable rfl).2.1⟩

/-- C18 as stated fails: with `remaining = 1` and `maxCandidates = 5000` the eligible ordering
is `[aaa, bbb]`; `aaa` is skipped by its backoff and `bbb`, positioned after the first
`min(remaining, maxCandidates) = 1` eligible candidates, is attempted. -/
theorem runExpansion_attempts_beyond_remaining :
    ((exampleBackoffTable.filter eligibleStatus).insertionSort candidateOrder).map (·.enode)
      = ["enode://aaa@10.0.0.5:30303".toList, "enode://bbb@10.0.0.6:30303".toList] ∧
    min (exampleConfig.expansionRate
        - (windowCheck 1700000180000 initialExpansionState).count)
      exampleConfig.maxCandidates = 1 ∧
    (runExpansion exampleConfig 1700000180000 (fun _ => RpcOutcome.falsy)
      initialExpansionState exampleBackoffTable).calls
      = ["enode://bbb@10.0.0.6:30303".toList] := by
  decide

/-- C18, amended: a `runExpansion` invocation fetches at most `maxCandidates` candidates of the
eligible ordering, attempts only fetched candidates, and attempts at most
`min(remaining, maxCandidates)` of them; in a table keyed by connection string, a candidate
positioned after the first `maxCandidates` eligible candidates is never attempted in that
invocation. -/
theorem runExpansion_scan_bound (cfg : ExpansionConfig) (now : Nat)
    (rpc : List Char → RpcOutcome) (st : ExpansionState) (table : List CandidateRow) :
    (selectEligible table cfg.maxCandidates).length ≤ cfg.maxCandidates ∧
    (∀ e ∈ (runExpansion cfg now rpc st table).calls,
      e ∈ (selectEligible table cfg.maxCandidates).map (·.enode)) ∧
    (runExpansion cfg now rpc st table).calls.length
      ≤ min (cfg.expansionRate - (windowCheck now st).count) cfg.maxCandidates ∧
    (∀ pre c post, (table.map (·.enode)).Nodup →
      (table.filter eligibleStatus).insertionSort candidateOrder = pre ++ c :: post →
      cfg.maxCandidates ≤ pre.length →
      c.enode ∉ (runExpansion cfg now rpc st table).calls) := by
  have hlen : (selectEligible table cfg.maxCandidates).length ≤ cfg.maxCandidates := by
    unfold selectEligible
    rw [List.length_take]
    exact Nat.min_le_left _ _
  cases hen : cfg.enableExpansion with
  | false =>
    rw [runExpansion_disabled _ _ _ _ _ hen]
    exact ⟨hlen, by simp, by simp, fun _ _ _ _ _ _ => by simp⟩
  | true =>
    rw [runExpansion_eq _ _ _ _ _ hen]
    simp only [List.length_map]
    have hsub : ∀ a ∈ attemptedCandidates cfg now st table,
        a ∈ selectEligible table cfg.maxCandidates := by
      intro a ha
      unfold attemptedCandidates at ha
      exact (List.mem_filter.1 (List.mem_of_mem_take ha)).1
    refine ⟨hlen, ?_, ?_, ?_⟩
    · intro e he
      obtain ⟨a, ha, rfl⟩ := List.mem_map.1 he
      exact List.mem_map.2 ⟨a, hsub a ha, rfl⟩
    · have h1 := attemptedCandidates_length_le cfg now st table
      have h2 : (attemptedCandidates cfg now st table).length
          ≤ (selectEligible table cfg.maxCandidates).length := by
        unfold attemptedCandidates
        exact ((List.take_sublist _ _).trans (List.filter_sublist _)).length_le
      exact Nat.le_min.2 ⟨h1, le_trans h2 hlen⟩
    · intro pre c post hkey hsorted hmax hcall
      obtain ⟨a, ha, hae⟩ := List.mem_map.1 hcall
      have hsel := hsub a ha
      unfold selectEligible at hsel
      rw [hsorted, List.take_append_of_le_length hmax] at hsel
      have hapre : a ∈ pre := List.mem_of_mem_take hsel
      have h1 : ((table.filter eligibleStatus).map (·.enode)).Nodup :=
        hkey.sublist (List.Sublist.map _ (List.filter_sublist _))
      have h2 : (((table.filter eligibleStatus).insertionSort candidateOrder).map
          (·.enode)).Nodup :=
        ((List.perm_insertionSort candidateOrder _).map _).nodup_iff.2 h1
      rw [hsorted, List.map_append, List.map_cons, List.nodup_append] at h2
      exact h2.2.2 (List.mem_map.2 ⟨a, hapre, rfl⟩) (by rw [hae]; exact List.mem_cons_self _ _)

/-- C18, amended, with `maxCandidates = 1`: the second candidate of the eligible ordering is
not attempted although the first is skipped by its backoff. -/
theorem runExpansion_scan_bound_witness :
    "enode://bbb@10.0.0.6:30303".toList ∉
      (runExpansion { enableExpansion := true, expansionRate := 30, maxCandidates := 1 }
        1700000180000 (fun _ => RpcOutcome.falsy) initialExpansionState
        exampleBackoffTable).calls :=
  (runExpansion_scan_bound { enableExpansion := true, expansionRate := 30, maxCandidates := 1 }
    1700000180000 (fun _ => RpcOutcome.falsy) initialExpansionState exampleBackoffTable).2.2.2
    [exampleSkippedCandidate] exampleDueCandidate [] (by decide) (by decide) (by decide)

/-! ## Auto-exporter: claim C19 -/

/-- C19: when the existing export file holds at least `L` distinct entries, the list written
by `writeAutoExports` is, for every fresh list `F`, exactly the first `L` distinct existing
entries, so every written entry comes from the file and no fresh connection string that is
absent from the file is added. -/
theorem writeAutoExports_full_file (E F : List (List Char)) (L : Nat)
    (h : L ≤ (dedupKeepFirst E).length) :
    writeAutoExports E F L = (dedupKeepFirst E).take L ∧
    (∀ x ∈ writeAutoExports E F L, x ∈ E) ∧
    (∀ x ∈ F, x ∉ E → x ∉ writeAutoExports E F L) := by
  have hmain : writeAutoExports E F L = (dedupKeepFirst E).take L := by
    rw [writeAutoExports_closed_form, List.take_append_of_le_length h]
  have hmem : ∀ x ∈ writeAutoExports E F L, x ∈ E := by
    intro x hx
    rw [hmain] at hx
    exact (mem_dedupKeepFirst E x).1 (List.mem_of_mem_take hx)
  exact ⟨hmain, hmem, fun x _ hxE hx => hxE (hmem x hx)⟩

/-- C19 on a file `[A, B, A, C]` with limit 2 and a fresh entry `D`: the list written is
`[A, B]`. -/
theorem writeAutoExports_full_file_witness :
    writeAutoExports ["A".toList, "B".toList, "A".toList, "C".toList]
        ["D".toList, "B".toList] 2
      = ["A".toList, "B".toList] :=
  (writeAutoExports_full_file ["A".toList, "B".toList, "A".toList, "C".toList]
    ["D".toList, "B".toList] 2 (by decide)).1

/-! ## Poller: claim C16 -/

/-- C16: when no tick is in flight and the `admin_peers` call of a poll tick fails, the tick
leaves `rpcOk = false` and `isPolling = false`, issues no RPC call other than that
`admin_peers` call, and leaves the peer table, the candidate table, the rate-window state, the
cached peer snapshot, `lastUpdate`, `lastAutoExport` and every other part of the state (cached
peer count and node info, export files) unchanged. -/
theorem poll_adminPeers_failure (cfg : PollConfig) (env : Collaborators)
    (toISOString : Nat → List Char) (rpc : RpcEnv) (clock : TickClock) (s : PollerState)
    (hidle : s.isPolling = false) (hfail : rpc.adminPeers = none) :
    (poll cfg env toISOString rpc clock s).1.rpcOk = false ∧
    (poll cfg env toISOString rpc clock s).1.isPolling = false ∧
    (poll cfg env toISOString rpc clock s).2 = [RpcCall.adminPeers] ∧
    (poll cfg env toISOString rpc clock s).1.db.nodes = s.db.nodes ∧
    (poll cfg env toISOString rpc clock s).1.db.candidates = s.db.candidates ∧
    (poll cfg env toISOString rpc clock s).1.expansionState = s.expansionState ∧
    (poll cfg env toISOString rpc clock s).1.lastPeersRaw = s.lastPeersRaw ∧
    (poll cfg env toISOString rpc clock s).1.lastUpdate = s.lastUpdate ∧
    (poll cfg env toISOString rpc clock s).1.lastAutoExport = s.lastAutoExport ∧
    (poll cfg env toISOString rpc clock s).1 = { s with rpcOk := false } := by
  have h : poll cfg env toISOString rpc clock s
      = ({ s with rpcOk := false, isPolling := false }, [RpcCall.adminPeers]) := by
    unfold poll
    rw [hidle, hfail]
    rfl
  rw [h]
  refine ⟨rfl, rfl, rfl, rfl, rfl, rfl, rfl, rfl, rfl, ?_⟩
  cases s
  simp only at hidle
  subst hidle
  rfl

/-- C16 on a poller with one stored peer and a node that does not answer. -/
theorem poll_adminPeers_failure_witness :
    (poll ⟨exampleConfig30, ⟨true, 1800000, 200, true, 600000⟩⟩ exampleEnv (fun _ => [])
        exampleDownRpc ⟨1700000015000, 1700000015000, 1700000015000, 1700000015000,
          1700000015000⟩ examplePollerState).1
      = { examplePollerState with rpcOk := false } ∧
    (poll ⟨exampleConfig30, ⟨true, 1800000, 200, true, 600000⟩⟩ exampleEnv (fun _ => [])
        exampleDownRpc ⟨1700000015000, 1700000015000, 1700000015000, 1700000015000,
          1700000015000⟩ examplePollerState).2
      = [RpcCall.adminPeers] :=
  ⟨(poll_adminPeers_failure _ _ _ _ _ _ rfl rfl).2.2.2.2.2.2.2.2.2,
   (poll_adminPeers_failure _ _ _ _ _ _ rfl rfl).2.2.1⟩

end NodeExplorer
